import Mathlib

/-!
Monitored-resource mapping and attribute filtering.

A shallow embedding of `exporter/collector/monitoredresource.go`.

Conventions of the embedding:

* A Go `string` is a Lean `String`, read as its sequence of characters.  `len`, the slice
  expressions `s[:n]`, `s[n:]` and `strings.HasPrefix` are the list operations on that
  sequence.  (Go counts bytes; on well-formed UTF-8 text, which is what attribute keys are,
  being a byte prefix and being a character prefix coincide, and so do the remainders.)
* `pcommon.Map` is the ordered slice of key/value pairs that backs it; `Range` visits the
  pairs in slice order and stops as soon as the callback answers `false`.
* A Go closure that assigns to captured variables becomes a function on the captured state
  that also returns the closure's boolean answer.
* A Go `map[string]string` is an association list with assignment semantics.
* The heuristic mappers of package `resourcemapping` and `regexp.Match` are parameters.
-/

namespace Collector

/-! ## Strings -/

/-- Go `len(s)`. -/
def len (s : String) : Nat := s.data.length

/-- Go `s[:n]`. -/
def sliceTo (s : String) (n : Nat) : String := ⟨s.data.take n⟩

/-- Go `s[n:]`. -/
def sliceFrom (s : String) (n : Nat) : String := ⟨s.data.drop n⟩

/-- Go `strings.HasPrefix(s, p)`, which is `len(s) >= len(p) && s[:len(p)] == p`. -/
def HasPrefix (s p : String) : Bool :=
  decide (len s ≥ len p) && (sliceTo s (len p) == p)

/-! ## Attribute values (`pcommon.Value`) -/

/-- A `pcommon.Value`.  Strings, booleans, integers and the empty value are kept as such; a
value of one of the remaining kinds (double, bytes, map, slice) is kept together with the
text that the library renders it to. -/
inductive Value where
  | empty
  | str (s : String)
  | bool (b : Bool)
  | int (i : Int)
  | other (text : String)
  deriving DecidableEq, Repr

/-- Go `strconv.FormatInt(i, 10)`. -/
def formatInt : Int → String
  | Int.ofNat n => Nat.repr n
  | Int.negSucc n => "-" ++ Nat.repr (n + 1)

/-- `Value.AsString`: the string form of an attribute value. -/
def Value.AsString : Value → String
  | .empty => ""
  | .str s => s
  | .bool b => if b then "true" else "false"
  | .int i => formatInt i
  | .other text => text

/-! ## Key/value slices -/

/-- The value of the first pair whose key is `key`. -/
def assocGet {β : Type} (key : String) : List (String × β) → Option β
  | [] => none
  | (k, v) :: rest => if k = key then some v else assocGet key rest

/-- Overwrite the value of the first pair whose key is `k`, or append the pair `(k, v)` when
no pair has that key. -/
def assocPut {β : Type} (k : String) (v : β) : List (String × β) → List (String × β)
  | [] => [(k, v)]
  | (k', v') :: rest => if k' = k then (k', v) :: rest else (k', v') :: assocPut k v rest

/-! ## Attribute maps (`pcommon.Map`) -/

/-- A `pcommon.Map`: the slice of key/value pairs, in slice order. -/
structure Map where
  entries : List (String × Value)
  deriving DecidableEq, Repr

/-- `pcommon.NewMap()`. -/
def NewMap : Map := ⟨[]⟩

/-- `Map.Get`: the value of the first pair whose key is `key`. -/
def Map.Get (m : Map) (key : String) : Option Value := assocGet key m.entries

/-- The loop of `Map.Range`: `f` is called on each pair with the state captured by the
closure, and the iteration stops at the first pair on which it answers `false`. -/
def rangeLoop {σ : Type} (f : String → Value → σ → σ × Bool) :
    List (String × Value) → σ → σ
  | [], s => s
  | (k, v) :: rest, s =>
    match f k v s with
    | (s', true) => rangeLoop f rest s'
    | (s', false) => s'

/-- `Map.Range`. -/
def Map.Range {σ : Type} (m : Map) (f : String → Value → σ → σ × Bool) (s : σ) : σ :=
  rangeLoop f m.entries s

/-- The statement `v.CopyTo(m.PutEmpty(k))`: `PutEmpty` reuses the slot of an existing pair
with key `k` or appends a fresh pair, and `CopyTo` copies `v`, with its type, into it. -/
def Map.put (m : Map) (k : String) (v : Value) : Map := ⟨assocPut k v m.entries⟩

/-- The keys of a map are pairwise distinct. -/
def Map.UniqueKeys (m : Map) : Prop := (m.entries.map Prod.fst).Nodup

instance (m : Map) : Decidable m.UniqueKeys := by
  unfold Map.UniqueKeys; infer_instance

/-! ## Go `map[string]string` -/

/-- A Go `map[string]string`. -/
abbrev StringMap := List (String × String)

/-- Go `v, ok := m[k]`. -/
def StringMap.get (m : StringMap) (k : String) : Option String := assocGet k m

/-- Go `m[k] = v`. -/
def StringMap.set (m : StringMap) (k : String) (v : String) : StringMap := assocPut k v m

/-! ## The monitored resource and the collaborators -/

/-- `monitoredrespb.MonitoredResource`, restricted to the two fields the code sets. -/
structure MonitoredResource where
  Type_ : String
  Labels : StringMap
  deriving DecidableEq, Repr

/-- `pcommon.Resource`, restricted to its attributes. -/
structure Resource where
  Attributes : Map
  deriving DecidableEq, Repr

/-- The adapter `attributes` handed to the heuristic mappers. -/
structure attributes where
  Attrs : Map
  deriving DecidableEq, Repr

/-- `(*attributes).GetString`. -/
def attributes.GetString (attrs : attributes) (key : String) : String × Bool :=
  match attrs.Attrs.Get key with
  | some value => (value.AsString, true)
  | none => ("", false)

/-- The two heuristic mappers of package `resourcemapping`, which the code calls and does
not define. -/
structure resourcemapping where
  ResourceAttributesToMonitoringMonitoredResource : attributes → MonitoredResource
  ResourceAttributesToLoggingMonitoredResource : attributes → MonitoredResource

def mappingKey : String := "gcp.resource_type"

def monitoredResourceLabelPrefix : String := "gcp."

def defaultResourceToMonitoringMonitoredResource (rm : resourcemapping) (resource : Resource) :
    MonitoredResource :=
  rm.ResourceAttributesToMonitoringMonitoredResource ⟨resource.Attributes⟩

def defaultResourceToLoggingMonitoredResource (rm : resourcemapping) (resource : Resource) :
    MonitoredResource :=
  rm.ResourceAttributesToLoggingMonitoredResource ⟨resource.Attributes⟩

/-- The first `Range` callback of `CustomResourceToMonitoredResource`; the state is the
captured `monitoredResourceType`. -/
def findType (k : String) (v : Value) (monitoredResourceType : String) : String × Bool :=
  if k = mappingKey then (v.AsString, false) else (monitoredResourceType, true)

/-- The second `Range` callback of `CustomResourceToMonitoredResource`; the state is the
captured `monitoredResourceLabels`. -/
def collectLabel (pfx : String) (k : String) (v : Value) (monitoredResourceLabels : StringMap) :
    StringMap × Bool :=
  if len k > len pfx && sliceTo k (len pfx) == pfx then
    (StringMap.set monitoredResourceLabels (sliceFrom k (len pfx)) v.AsString, true)
  else
    (monitoredResourceLabels, true)

def CustomResourceToMonitoredResource (rm : resourcemapping) (r : Resource) : MonitoredResource :=
  let monitoredResourceType : String := r.Attributes.Range findType ""
  if monitoredResourceType = "" then
    rm.ResourceAttributesToMonitoringMonitoredResource ⟨r.Attributes⟩
  else
    let pfx := monitoredResourceLabelPrefix ++ monitoredResourceType ++ "."
    let monitoredResourceLabels : StringMap := r.Attributes.Range (collectLabel pfx) []
    { Type_ := monitoredResourceType, Labels := monitoredResourceLabels }

/-! ## The attribute filter -/

/-- Modelled from the spec: the type `ResourceFilter` is declared outside this file; a
filter rule is a literal key prefix together with a regular expression. -/
structure ResourceFilter where
  Prefix : String
  Regex : String
  deriving DecidableEq, Repr

/-- `semconv.AttributeServiceName`. -/
def AttributeServiceName : String := "service.name"

/-- `semconv.AttributeServiceNamespace`. -/
def AttributeServiceNamespace : String := "service.namespace"

/-- `semconv.AttributeServiceInstanceID`. -/
def AttributeServiceInstanceID : String := "service.instance.id"

/-- The first result of `regexp.Match` as read by `match, _ := regexp.Match(...)`: the
error is discarded, and `regexp.Match` reports `false` together with an error. -/
def matched : Except String Bool → Bool
  | .ok b => b
  | .error _ => false

/-- The `for _, resourceFilter := range resourceFilters` loop of the callback: the first
rule that applies copies the attribute and ends the callback. -/
def filterLoop (regexpMatch : String → String → Except String Bool) (k : String) (v : Value)
    (attrs : Map) : List ResourceFilter → Map
  | [] => attrs
  | resourceFilter :: rest =>
    let m := matched (regexpMatch resourceFilter.Regex k)
    if HasPrefix k resourceFilter.Prefix && m then attrs.put k v
    else filterLoop regexpMatch k v attrs rest

/-- The `Range` callback of `filterAttributes`; the state is the captured output map. -/
def filterStep (regexpMatch : String → String → Except String Bool)
    (serviceResourceLabels : Bool) (resourceFilters : List ResourceFilter)
    (k : String) (v : Value) (attrs : Map) : Map × Bool :=
  if serviceResourceLabels &&
      (k == AttributeServiceName ||
        k == AttributeServiceNamespace ||
        k == AttributeServiceInstanceID) then
    if len v.AsString > 0 then (attrs.put k v, true) else (attrs, true)
  else
    (filterLoop regexpMatch k v attrs resourceFilters, true)

def filterAttributes (regexpMatch : String → String → Except String Bool)
    (attributes : Map) (serviceResourceLabels : Bool) (resourceFilters : List ResourceFilter) :
    Map :=
  attributes.Range (filterStep regexpMatch serviceResourceLabels resourceFilters) NewMap

/-! ## Net effect of a `Range` that assigns at most once per pair -/

/-- Perform an optional assignment. -/
def applyWrite {β : Type} : Option (String × β) → List (String × β) → List (String × β)
  | some (k, b), acc => assocPut k b acc
  | none, acc => acc

/-- The map obtained from `acc` by visiting the pairs `es` in order and performing, for each
pair on which `g` answers `some (k, b)`, the assignment of `b` to key `k`. -/
def writeAll {β : Type} (g : String → Value → Option (String × β)) :
    List (String × Value) → List (String × β) → List (String × β)
  | [], acc => acc
  | (k, v) :: rest, acc => writeAll g rest (applyWrite (g k v) acc)

/-- The assignment made by `collectLabel` on the pair `(k, v)`, if any. -/
def labelWrite (pfx : String) (k : String) (v : Value) : Option (String × String) :=
  if len k > len pfx && sliceTo k (len pfx) == pfx then
    some (sliceFrom k (len pfx), v.AsString)
  else none

/-- Some rule of the list applies to the key `k`: its prefix is a prefix of `k` and its
regular expression matches `k`. -/
def ruleMatches (regexpMatch : String → String → Except String Bool)
    (resourceFilters : List ResourceFilter) (k : String) : Bool :=
  resourceFilters.any fun rf => HasPrefix k rf.Prefix && matched (regexpMatch rf.Regex k)

/-- The key `k` is one of the three service keys. -/
def isServiceKey (k : String) : Bool :=
  k == AttributeServiceName || k == AttributeServiceNamespace || k == AttributeServiceInstanceID

/-- The decision `filterStep` takes on the pair `(k, v)`: copy it or not. -/
def keeps (regexpMatch : String → String → Except String Bool)
    (serviceResourceLabels : Bool) (resourceFilters : List ResourceFilter)
    (k : String) (v : Value) : Bool :=
  if serviceResourceLabels && isServiceKey k then decide (len v.AsString > 0)
  else ruleMatches regexpMatch resourceFilters k

/-- The assignment made by `filterStep` on the pair `(k, v)`, if any. -/
def filterWrite (regexpMatch : String → String → Except String Bool)
    (serviceResourceLabels : Bool) (resourceFilters : List ResourceFilter)
    (k : String) (v : Value) : Option (String × Value) :=
  if keeps regexpMatch serviceResourceLabels resourceFilters k v then some (k, v) else none

/-! ## Sample data -/

/-- A mapper pair that classifies everything as a generic node. -/
def genericMapper : resourcemapping where
  ResourceAttributesToMonitoringMonitoredResource := fun _ => ⟨"generic_node", []⟩
  ResourceAttributesToLoggingMonitoredResource := fun _ => ⟨"generic_node", []⟩

/-- The resource of the round-trip scenario. -/
def podResource : Resource :=
  ⟨⟨[("gcp.resource_type", .str "k8s_pod"), ("gcp.k8s_pod.namespace", .str "default"),
     ("gcp.k8s_pod.pod_name", .str "web-1"), ("other.unrelated", .str "x")]⟩⟩

/-- An override of type `foo` with one label and one further attribute under `gcp.foo.`. -/
def fooTwoLabels : Resource :=
  ⟨⟨[("gcp.resource_type", .str "foo"), ("gcp.foo.bar", .str "baz"),
     ("gcp.foo.qux", .str "x")]⟩⟩

/-- An override of type `foo` with the single label `bar`, next to unrelated attributes. -/
def fooOneLabel : Resource :=
  ⟨⟨[("host.name", .str "h1"), ("gcp.resource_type", .str "foo"), ("gcp.foo.bar", .str "baz"),
     ("gcp.foo", .int 7)]⟩⟩

/-- A resource without the reserved key. -/
def plainResource : Resource :=
  ⟨⟨[("host.name", .str "h1"), ("gcp.foo.bar", .str "baz"), ("cloud.zone", .str "z")]⟩⟩

/-- A resource whose reserved key carries the empty string. -/
def emptyTypeResource : Resource :=
  ⟨⟨[("gcp.resource_type", .str ""), ("gcp..bar", .str "baz")]⟩⟩

/-- An override of type `foo` that also has an attribute whose key is the bare prefix. -/
def barePrefixResource : Resource :=
  ⟨⟨[("gcp.resource_type", .str "foo"), ("gcp.foo.", .str "x"), ("gcp.foo.bar", .str "baz")]⟩⟩

/-- An override of type `foo` with an attribute named after the reserved key under the
label prefix. -/
def nestedKeyResource : Resource :=
  ⟨⟨[("gcp.resource_type", .str "foo"), ("gcp.foo.gcp.resource_type", .str "x")]⟩⟩

/-- A mapper pair that echoes the value found under `host.name` as the type, whatever it
is, for the monitoring flavour. -/
def hostMapper : resourcemapping where
  ResourceAttributesToMonitoringMonitoredResource := fun a =>
    ⟨(a.GetString "host.name").1, [("n", toString a.Attrs.entries.length)]⟩
  ResourceAttributesToLoggingMonitoredResource := fun _ => ⟨"generic_node", []⟩

/-- Whether the characters `p` occur in `cs` as a contiguous block. -/
def hasSub (p : List Char) : List Char → Bool
  | [] => p.isEmpty
  | c :: cs => p.isPrefixOf (c :: cs) || hasSub p cs

/-- A stand-in for `regexp.Match` on three kinds of pattern: `.*` matches every key, `(`
does not compile, and any other pattern is taken as a literal that must occur in the key. -/
def sampleRegexp (pattern k : String) : Except String Bool :=
  if pattern = ".*" then .ok true
  else if pattern = "(" then .error "missing closing )"
  else .ok (hasSub pattern.data k.data)

/-- Attributes of a service running in a pod. -/
def serviceAttrs : Map :=
  ⟨[("service.name", .str "orders"), ("service.namespace", .str ""),
    ("k8s.pod.name", .str "web-1"), ("host.name", .str "h1"), ("cloud.zone", .int 3)]⟩

/-- Three rules: everything under `k8s.`, a rule under `host` whose pattern does not
compile, and every key that mentions `zone`. -/
def sampleRules : List ResourceFilter :=
  [⟨"k8s.", ".*"⟩, ⟨"host", "("⟩, ⟨"", "zone"⟩]

/-- One rule: everything under `service.`. -/
def serviceRules : List ResourceFilter := [⟨"service.", ".*"⟩]

/-- Two rules that both apply to `k8s.pod.name`. -/
def overlappingRules : List ResourceFilter := [⟨"k8s.", ".*"⟩, ⟨"", "pod"⟩]

/-- A sequence of attributes that repeats the reserved key: first with the empty string,
then with `foo`. -/
def emptyThenFoo : Resource :=
  ⟨⟨[("gcp.resource_type", .str ""), ("gcp.resource_type", .str "foo"),
     ("gcp.foo.bar", .str "baz")]⟩⟩

/-- A sequence of attributes that repeats the reserved key: first with `foo`, then with
`other`. -/
def fooThenOther : Resource :=
  ⟨⟨[("host.name", .str "h1"), ("gcp.resource_type", .str "foo"),
     ("gcp.resource_type", .str "other"), ("gcp.foo.bar", .str "baz"),
     ("gcp.other.qux", .str "x")]⟩⟩

/-! ## Strings: slicing and strict extension -/

theorem len_append (p s : String) : len (p ++ s) = len p + len s := by
  simp [len, String.data_append]

theorem len_eq_zero_iff (s : String) : len s = 0 ↔ s = "" := by
  constructor
  · intro h
    apply String.ext
    exact List.length_eq_zero.1 h
  · rintro rfl; rfl

theorem sliceTo_append (p s : String) : sliceTo (p ++ s) (len p) = p := by
  apply String.ext
  simp [sliceTo, len, String.data_append]

theorem sliceFrom_append (p s : String) : sliceFrom (p ++ s) (len p) = s := by
  apply String.ext
  simp [sliceFrom, len, String.data_append]

theorem sliceTo_append_sliceFrom (k : String) (n : Nat) : sliceTo k n ++ sliceFrom k n = k := by
  apply String.ext
  simp [sliceTo, sliceFrom, String.data_append]

theorem len_sliceFrom (k : String) (n : Nat) : len (sliceFrom k n) = len k - n := by
  simp [sliceFrom, len]

theorem append_left_cancel {p s s' : String} (h : p ++ s = p ++ s') : s = s' := by
  apply String.ext
  have h' := congrArg String.data h
  simpa [String.data_append] using h'

/-- The test `len(k) > len(p) && k[:len(p)] == p` holds exactly when `k` is `p` followed by
a non-empty remainder, and that remainder is `k[len(p):]`. -/
theorem strictExt_iff (k p : String) :
    (len k > len p && sliceTo k (len p) == p) = true ↔
      sliceFrom k (len p) ≠ "" ∧ k = p ++ sliceFrom k (len p) := by
  simp only [Bool.and_eq_true, decide_eq_true_eq, beq_iff_eq]
  constructor
  · rintro ⟨hlen, hp⟩
    refine ⟨?_, ?_⟩
    · intro h0
      have h1 := len_sliceFrom k (len p)
      rw [h0] at h1
      have h2 : len "" = 0 := rfl
      omega
    · conv_lhs => rw [← sliceTo_append_sliceFrom k (len p)]
      rw [hp]
  · rintro ⟨hne, hk⟩
    have hs : len (sliceFrom k (len p)) ≠ 0 := fun h => hne ((len_eq_zero_iff _).1 h)
    refine ⟨?_, ?_⟩
    · have h1 := len_append p (sliceFrom k (len p))
      rw [← hk] at h1
      omega
    · conv_lhs => rw [hk]
      exact sliceTo_append p _

theorem strictExt_append (p s : String) (hs : s ≠ "") :
    (len (p ++ s) > len p && sliceTo (p ++ s) (len p) == p) = true := by
  rw [strictExt_iff, sliceFrom_append]
  exact ⟨hs, rfl⟩

/-! ## Key/value slices: lookup after assignment -/

theorem assocGet_assocPut {β : Type} (k : String) (v : β) (l : List (String × β)) (s : String) :
    assocGet s (assocPut k v l) = if k = s then some v else assocGet s l := by
  induction l with
  | nil => simp [assocPut, assocGet]
  | cons e rest ih =>
    obtain ⟨k', v'⟩ := e
    by_cases h : k' = k
    · subst h
      by_cases h2 : k' = s <;> simp [assocPut, assocGet, h2]
    · by_cases h2 : k' = s
      · subst h2
        have h3 : k ≠ k' := fun h3 => h h3.symm
        simp [assocPut, assocGet, h, h3]
      · simp [assocPut, assocGet, h, h2, ih]

theorem assocGet_isSome_iff {β : Type} (k : String) (l : List (String × β)) :
    (assocGet k l).isSome = true ↔ k ∈ l.map Prod.fst := by
  induction l with
  | nil => simp [assocGet]
  | cons e rest ih =>
    obtain ⟨k', v'⟩ := e
    by_cases h : k' = k
    · simp [assocGet, h]
    · have h' : ¬ k = k' := fun h2 => h h2.symm
      simp only [assocGet, h, if_false, ih, List.map_cons, List.mem_cons, h', false_or]

theorem mem_of_assocGet {β : Type} {k : String} {v : β} {l : List (String × β)}
    (h : assocGet k l = some v) : (k, v) ∈ l := by
  induction l with
  | nil => simp [assocGet] at h
  | cons e rest ih =>
    obtain ⟨k', v'⟩ := e
    by_cases hk : k' = k
    · simp [assocGet, hk] at h
      simp [hk, h]
    · simp only [assocGet, hk, if_false] at h
      exact List.mem_cons_of_mem _ (ih h)

theorem assocGet_of_mem {β : Type} {k : String} {v : β} {l : List (String × β)}
    (hnd : (l.map Prod.fst).Nodup) (h : (k, v) ∈ l) : assocGet k l = some v := by
  induction l with
  | nil => simp at h
  | cons e rest ih =>
    obtain ⟨k', v'⟩ := e
    rw [List.map_cons, List.nodup_cons] at hnd
    rcases List.mem_cons.1 h with h1 | h1
    · cases h1
      simp [assocGet]
    · have hk : k' ≠ k := by
        rintro rfl
        exact hnd.1 (List.mem_map.2 ⟨(k', v), h1, rfl⟩)
      simp only [assocGet, hk, if_false]
      exact ih hnd.2 h1

theorem assocGet_eq_some_iff {β : Type} {k : String} {v : β} {l : List (String × β)}
    (hnd : (l.map Prod.fst).Nodup) : assocGet k l = some v ↔ (k, v) ∈ l :=
  ⟨mem_of_assocGet, assocGet_of_mem hnd⟩

/-! ## `Range` with a callback that never stops -/

theorem rangeLoop_writeAll {β : Type} (f : String → Value → List (String × β) → List (String × β) × Bool)
    (g : String → Value → Option (String × β))
    (hf : ∀ k v acc, f k v acc = (applyWrite (g k v) acc, true))
    (es : List (String × Value)) (acc : List (String × β)) :
    rangeLoop f es acc = writeAll g es acc := by
  induction es generalizing acc with
  | nil => rfl
  | cons e rest ih =>
    obtain ⟨k, v⟩ := e
    simp only [rangeLoop, writeAll, hf]
    exact ih _

/-- Presence of a key after `writeAll`: some visited pair assigned to it, or it was there. -/
theorem assocGet_writeAll_isSome {β : Type} (g : String → Value → Option (String × β))
    (es : List (String × Value)) (acc : List (String × β)) (s : String) :
    (assocGet s (writeAll g es acc)).isSome = true ↔
      (∃ e ∈ es, ∃ b, g e.1 e.2 = some (s, b)) ∨ (assocGet s acc).isSome = true := by
  induction es generalizing acc with
  | nil => simp [writeAll]
  | cons e rest ih =>
    obtain ⟨k, v⟩ := e
    cases hg : g k v with
    | none =>
      simp only [writeAll, applyWrite, hg, ih, List.mem_cons, exists_eq_or_imp]
      simp
    | some kb =>
      obtain ⟨k', b'⟩ := kb
      simp only [writeAll, applyWrite, hg, ih, List.mem_cons, exists_eq_or_imp,
        assocGet_assocPut]
      by_cases hk : k' = s
      · subst hk; simp
      · simp [hk]

/-- Value of a key after `writeAll`, when no two visited pairs assign to the same key. -/
theorem assocGet_writeAll {β : Type} (g : String → Value → Option (String × β))
    (es : List (String × Value))
    (hpw : es.Pairwise fun e1 e2 =>
      ∀ a b, g e1.1 e1.2 = some a → g e2.1 e2.2 = some b → a.1 ≠ b.1)
    (acc : List (String × β)) (s : String) (w : β) :
    assocGet s (writeAll g es acc) = some w ↔
      (∃ e ∈ es, g e.1 e.2 = some (s, w)) ∨
        ((∀ e ∈ es, ∀ b, g e.1 e.2 ≠ some (s, b)) ∧ assocGet s acc = some w) := by
  induction es generalizing acc with
  | nil => simp [writeAll]
  | cons e rest ih =>
    obtain ⟨k, v⟩ := e
    rw [List.pairwise_cons] at hpw
    obtain ⟨hhd, htl⟩ := hpw
    cases hg : g k v with
    | none =>
      simp only [writeAll, applyWrite, hg, ih htl, List.mem_cons, exists_eq_or_imp,
        forall_eq_or_imp]
      simp
    | some kb =>
      obtain ⟨k', b'⟩ := kb
      simp only [writeAll, applyWrite, hg, ih htl, List.mem_cons, exists_eq_or_imp,
        forall_eq_or_imp, assocGet_assocPut]
      by_cases hk : k' = s
      · subst hk
        have hno : ∀ e ∈ rest, ∀ b, g e.1 e.2 ≠ some (k', b) := by
          intro e he b hb
          exact hhd e he (k', b') (k', b) hg hb rfl
        constructor
        · rintro (⟨e, he, hge⟩ | ⟨_, hw⟩)
          · exact absurd hge (hno e he w)
          · simp at hw
            left; left; simp [hw]
        · rintro ((hw | ⟨e, he, hge⟩) | ⟨⟨hb, _⟩, _⟩)
          · right
            refine ⟨hno, ?_⟩
            simp at hw
            simp [hw]
          · exact absurd hge (hno e he w)
          · exact absurd rfl (hb b')
      · have hk2 : ∀ b, (some (k', b') : Option (String × β)) ≠ some (s, b) := by
          intro b hb
          simp at hb
          exact hk hb.1
        simp [hk, hk2]

/-! ## `CustomResourceToMonitoredResource`: the two paths -/

theorem rangeLoop_findType (es : List (String × Value)) (t0 : String) :
    rangeLoop findType es t0 =
      match assocGet mappingKey es with
      | some v => v.AsString
      | none => t0 := by
  induction es generalizing t0 with
  | nil => rfl
  | cons e rest ih =>
    obtain ⟨k, v⟩ := e
    by_cases hk : k = mappingKey
    · simp [rangeLoop, findType, assocGet, hk]
    · simp [rangeLoop, findType, assocGet, hk, ih]

theorem collectLabel_eq (pfx k : String) (v : Value) (acc : StringMap) :
    collectLabel pfx k v acc = (applyWrite (labelWrite pfx k v) acc, true) := by
  unfold collectLabel labelWrite
  split <;> rfl

/-- On the override path the result is the override type together with the labels written
by the second `Range`. -/
theorem custom_override (rm : resourcemapping) (r : Resource) (v : Value)
    (hkey : r.Attributes.Get mappingKey = some v) (hne : v.AsString ≠ "") :
    CustomResourceToMonitoredResource rm r =
      ⟨v.AsString,
        writeAll (labelWrite ("gcp." ++ v.AsString ++ ".")) r.Attributes.entries []⟩ := by
  have ht : r.Attributes.Range findType "" = v.AsString := by
    unfold Map.Range Map.Get at *
    rw [rangeLoop_findType, hkey]
  unfold CustomResourceToMonitoredResource
  simp only [ht, hne, if_false]
  congr 1
  unfold Map.Range monitoredResourceLabelPrefix
  exact rangeLoop_writeAll _ _ (collectLabel_eq ("gcp." ++ v.AsString ++ ".")) _ _

/-- On the default path the result is the monitoring mapper's. -/
theorem custom_default (rm : resourcemapping) (r : Resource)
    (h : r.Attributes.Get mappingKey = none ∨
      ∃ v, r.Attributes.Get mappingKey = some v ∧ v.AsString = "") :
    CustomResourceToMonitoredResource rm r =
      rm.ResourceAttributesToMonitoringMonitoredResource ⟨r.Attributes⟩ := by
  have ht : r.Attributes.Range findType "" = "" := by
    unfold Map.Range Map.Get at *
    rw [rangeLoop_findType]
    rcases h with h | ⟨v, h, hv⟩
    · rw [h]
    · rw [h]; exact hv
  unfold CustomResourceToMonitoredResource
  simp only [ht, if_true]

theorem labelWrite_eq_some_iff (pfx k : String) (v : Value) (s w : String) :
    labelWrite pfx k v = some (s, w) ↔ s ≠ "" ∧ k = pfx ++ s ∧ v.AsString = w := by
  unfold labelWrite
  by_cases h : (len k > len pfx && sliceTo k (len pfx) == pfx) = true
  · rw [if_pos h]
    have h' := (strictExt_iff k pfx).1 h
    simp only [Option.some.injEq, Prod.mk.injEq]
    constructor
    · rintro ⟨rfl, rfl⟩
      exact ⟨h'.1, h'.2, rfl⟩
    · rintro ⟨_, hk, hw⟩
      refine ⟨?_, hw⟩
      have h2 := h'.2
      conv at h2 => lhs; rw [hk]
      exact (append_left_cancel h2).symm
  · rw [if_neg h]
    constructor
    · intro h0; cases h0
    · rintro ⟨hs, hk, _⟩
      exact absurd (hk ▸ strictExt_append pfx s hs) h

theorem labelWrite_pairwise (pfx : String) (es : List (String × Value))
    (hnd : (es.map Prod.fst).Nodup) :
    es.Pairwise fun e1 e2 =>
      ∀ a b, labelWrite pfx e1.1 e1.2 = some a → labelWrite pfx e2.1 e2.2 = some b →
        a.1 ≠ b.1 := by
  have hp : es.Pairwise fun e1 e2 => e1.1 ≠ e2.1 := List.pairwise_map.1 hnd
  refine hp.imp ?_
  intro e1 e2 hne a b ha hb hab
  obtain ⟨a1, a2⟩ := a
  obtain ⟨b1, b2⟩ := b
  have h1 := ((labelWrite_eq_some_iff pfx e1.1 e1.2 a1 a2).1 ha).2.1
  have h2 := ((labelWrite_eq_some_iff pfx e2.1 e2.2 b1 b2).1 hb).2.1
  simp only at hab
  exact hne (by rw [h1, h2, hab])

/-- The labels written for a map with unique keys. -/
theorem labels_get (pfx : String) (es : List (String × Value))
    (hnd : (es.map Prod.fst).Nodup) (s w : String) :
    assocGet s (writeAll (labelWrite pfx) es []) = some w ↔
      s ≠ "" ∧ ∃ x, assocGet (pfx ++ s) es = some x ∧ x.AsString = w := by
  rw [assocGet_writeAll _ _ (labelWrite_pairwise pfx es hnd)]
  simp only [assocGet, and_false, or_false, reduceCtorEq]
  constructor
  · rintro ⟨e, he, hw⟩
    obtain ⟨hs, hk, hv⟩ := (labelWrite_eq_some_iff _ _ _ _ _).1 hw
    refine ⟨hs, e.2, ?_, hv⟩
    apply assocGet_of_mem hnd
    rw [← hk]
    exact he
  · rintro ⟨hs, x, hx, hv⟩
    exact ⟨(pfx ++ s, x), mem_of_assocGet hx, (labelWrite_eq_some_iff _ _ _ _ _).2 ⟨hs, rfl, hv⟩⟩

/-- The keys present among the written labels, for any map. -/
theorem labels_keys (pfx : String) (es : List (String × Value)) (s : String) :
    s ∈ (writeAll (labelWrite pfx) es []).map Prod.fst ↔
      s ≠ "" ∧ ∃ x, (pfx ++ s, x) ∈ es := by
  rw [← assocGet_isSome_iff, assocGet_writeAll_isSome]
  simp only [assocGet, Option.isSome_none, or_false, Bool.false_eq_true]
  constructor
  · rintro ⟨e, he, b, hw⟩
    obtain ⟨hs, hk, _⟩ := (labelWrite_eq_some_iff _ _ _ _ _).1 hw
    refine ⟨hs, e.2, ?_⟩
    rw [← hk]
    exact he
  · rintro ⟨hs, x, hx⟩
    exact ⟨(pfx ++ s, x), hx, x.AsString, (labelWrite_eq_some_iff _ _ _ _ _).2 ⟨hs, rfl, rfl⟩⟩

/-! ## Further facts used below -/

theorem keys_assocPut {β : Type} (k : String) (v : β) (l : List (String × β)) :
    (assocPut k v l).map Prod.fst =
      if k ∈ l.map Prod.fst then l.map Prod.fst else l.map Prod.fst ++ [k] := by
  induction l with
  | nil => simp [assocPut]
  | cons e rest ih =>
    obtain ⟨k', v'⟩ := e
    by_cases h : k' = k
    · subst h; simp [assocPut]
    · have h' : ¬ k = k' := fun h2 => h h2.symm
      simp only [assocPut, h, if_false, List.map_cons, ih, List.mem_cons, h', false_or]
      split <;> simp

theorem nodup_keys_assocPut {β : Type} (k : String) (v : β) (l : List (String × β))
    (h : (l.map Prod.fst).Nodup) : ((assocPut k v l).map Prod.fst).Nodup := by
  rw [keys_assocPut]
  split
  · exact h
  · rename_i hk
    rw [List.nodup_append]
    refine ⟨h, List.nodup_singleton k, ?_⟩
    intro a ha hb
    simp only [List.mem_singleton] at hb
    subst hb
    exact hk ha

theorem nodup_keys_writeAll {β : Type} (g : String → Value → Option (String × β))
    (es : List (String × Value)) (acc : List (String × β)) (h : (acc.map Prod.fst).Nodup) :
    ((writeAll g es acc).map Prod.fst).Nodup := by
  induction es generalizing acc with
  | nil => exact h
  | cons e rest ih =>
    obtain ⟨k, v⟩ := e
    simp only [writeAll]
    apply ih
    cases hg : g k v with
    | none => exact h
    | some kb => exact nodup_keys_assocPut _ _ _ h

/-- A duplicate-free slice whose lookups are those of the one-pair map is that one pair. -/
theorem eq_singleton_of_get {β : Type} (l : List (String × β)) (hnd : (l.map Prod.fst).Nodup)
    (k : String) (v : β) (h : ∀ s w, assocGet s l = some w ↔ s = k ∧ w = v) :
    l = [(k, v)] := by
  have hall : ∀ e ∈ l, e = (k, v) := by
    intro e he
    have h1 := (h e.1 e.2).1 (assocGet_of_mem hnd he)
    exact Prod.ext h1.1 h1.2
  have hmem : (k, v) ∈ l := mem_of_assocGet ((h k v).2 ⟨rfl, rfl⟩)
  match l, hnd, hall, hmem with
  | [], _, _, hmem => simp at hmem
  | [e], _, hall, _ => rw [hall e (List.mem_singleton.2 rfl)]
  | e1 :: e2 :: rest, hnd, hall, _ =>
    exfalso
    have h1 := hall e1 (by simp)
    have h2 := hall e2 (by simp)
    subst h1 h2
    simp at hnd

/-- The reserved key is not a key under any label prefix. -/
theorem mappingKey_ne_ext (t s : String) : mappingKey ≠ "gcp." ++ t ++ "." ++ s := by
  intro h
  have h1 := congrArg String.data h
  simp only [String.data_append] at h1
  have h2 : mappingKey.data = "gcp.".data ++ "resource_type".data := by decide
  rw [h2, List.append_assoc, List.append_assoc, List.append_cancel_left_eq] at h1
  have h3 : '.' ∈ "resource_type".data := by
    rw [h1]
    simp only [List.mem_append]
    right; left
    decide
  exact absurd h3 (by decide)

theorem labelWrite_self (pfx : String) (v : Value) : labelWrite pfx pfx v = none := by
  simp [labelWrite]

theorem assocGet_filter_ne {β : Type} (p k : String) (hk : k ≠ p) (es : List (String × β)) :
    assocGet k (es.filter fun e => decide (e.1 ≠ p)) = assocGet k es := by
  induction es with
  | nil => rfl
  | cons e rest ih =>
    obtain ⟨k', v'⟩ := e
    rw [List.filter_cons]
    by_cases h : k' = p
    · have hd : ¬ (decide ((k', v').1 ≠ p) = true) := by simpa using h
      have h2 : ¬ k' = k := fun h2 => hk (h2.symm.trans h)
      rw [if_neg hd]
      simp only [assocGet, h2, if_false]
      exact ih
    · have hd : decide ((k', v').1 ≠ p) = true := by simpa using h
      rw [if_pos hd]
      simp only [assocGet]
      rw [ih]

theorem writeAll_filter_ne {β : Type} (g : String → Value → Option (String × β)) (p : String)
    (hg : ∀ v, g p v = none) (es : List (String × Value)) (acc : List (String × β)) :
    writeAll g (es.filter fun e => decide (e.1 ≠ p)) acc = writeAll g es acc := by
  induction es generalizing acc with
  | nil => rfl
  | cons e rest ih =>
    obtain ⟨k', v'⟩ := e
    rw [List.filter_cons]
    by_cases h : k' = p
    · have hd : ¬ (decide ((k', v').1 ≠ p) = true) := by simpa using h
      rw [if_neg hd]
      subst h
      simp only [writeAll, hg, applyWrite]
      exact ih acc
    · have hd : decide ((k', v').1 ≠ p) = true := by simpa using h
      rw [if_pos hd]
      simp only [writeAll]
      exact ih _

theorem ne_append_of_sliceTo (k p s : String) (h : sliceTo k (len p) ≠ p) : k ≠ p ++ s := by
  rintro rfl
  exact h (sliceTo_append p s)

/-- In `fooOneLabel` the only key that extends `gcp.foo.` is `gcp.foo.bar`. -/
theorem fooOneLabel_only (s : String) (y : Value)
    (h : fooOneLabel.Attributes.Get ("gcp.foo." ++ s) = some y) : s = "" ∨ s = "bar" := by
  have h1 : "host.name" ≠ "gcp.foo." ++ s := ne_append_of_sliceTo _ _ _ (by decide)
  have h2 : "gcp.resource_type" ≠ "gcp.foo." ++ s := ne_append_of_sliceTo _ _ _ (by decide)
  have h4 : "gcp.foo" ≠ "gcp.foo." ++ s := ne_append_of_sliceTo _ _ _ (by decide)
  by_cases h3 : "gcp.foo.bar" = "gcp.foo." ++ s
  · right
    have h5 : ("gcp.foo." ++ "bar" : String) = "gcp.foo." ++ s := h3
    exact (append_left_cancel h5).symm
  · simp [fooOneLabel, Map.Get, assocGet, h1, h2, h3, h4] at h

/-! ## Claims about `CustomResourceToMonitoredResource` -/

/-- C1. Override path: when the keys of the attribute set are unique and the reserved key
`gcp.resource_type` is present with a non-empty string form `t`, the result has type `t`,
and its labels map a key `s` to `w` exactly when `s` is non-empty and the attribute set has
an entry with key `"gcp." + t + "." + s` whose string form is `w`; each label key is stored
once.  Attributes whose key does not strictly extend the prefix contribute nothing. -/
theorem override_type_and_labels (rm : resourcemapping) (r : Resource) (v : Value)
    (huniq : r.Attributes.UniqueKeys)
    (hkey : r.Attributes.Get mappingKey = some v) (hne : v.AsString ≠ "") :
    (CustomResourceToMonitoredResource rm r).Type_ = v.AsString ∧
    ((CustomResourceToMonitoredResource rm r).Labels.map Prod.fst).Nodup ∧
    ∀ s w, StringMap.get (CustomResourceToMonitoredResource rm r).Labels s = some w ↔
      s ≠ "" ∧ ∃ x, r.Attributes.Get ("gcp." ++ v.AsString ++ "." ++ s) = some x ∧
        x.AsString = w := by
  rw [custom_override rm r v hkey hne]
  refine ⟨rfl, nodup_keys_writeAll _ _ _ (by simp), ?_⟩
  intro s w
  exact labels_get _ _ huniq s w

/-- The round-trip scenario: type `k8s_pod` with labels `namespace` and `pod_name`. -/
theorem override_type_and_labels_witness :
    podResource.Attributes.UniqueKeys ∧
    podResource.Attributes.Get mappingKey = some (.str "k8s_pod") ∧
    CustomResourceToMonitoredResource genericMapper podResource =
      ⟨"k8s_pod", [("namespace", "default"), ("pod_name", "web-1")]⟩ ∧
    ((CustomResourceToMonitoredResource genericMapper podResource).Type_ = "k8s_pod" ∧
    ((CustomResourceToMonitoredResource genericMapper podResource).Labels.map Prod.fst).Nodup ∧
    ∀ s w, StringMap.get (CustomResourceToMonitoredResource genericMapper podResource).Labels s
        = some w ↔
      s ≠ "" ∧ ∃ x, podResource.Attributes.Get ("gcp." ++ "k8s_pod" ++ "." ++ s) = some x ∧
        x.AsString = w) :=
  ⟨by decide, by decide, by decide,
    override_type_and_labels genericMapper podResource (.str "k8s_pod")
      (by decide) (by decide) (by decide)⟩

/-- C2, as stated, fails: an attribute set that contains `gcp.resource_type = foo` and
`gcp.foo.bar = baz` and also `gcp.foo.qux = x` yields the labels `bar` and `qux`, not the
identity with the single label `bar`. -/
theorem override_precedence_counterexample :
    fooTwoLabels.Attributes.UniqueKeys ∧
    fooTwoLabels.Attributes.Get "gcp.resource_type" = some (.str "foo") ∧
    fooTwoLabels.Attributes.Get "gcp.foo.bar" = some (.str "baz") ∧
    CustomResourceToMonitoredResource genericMapper fooTwoLabels =
      ⟨"foo", [("bar", "baz"), ("qux", "x")]⟩ ∧
    CustomResourceToMonitoredResource genericMapper fooTwoLabels ≠ ⟨"foo", [("bar", "baz")]⟩ ∧
    StringMap.get (CustomResourceToMonitoredResource genericMapper fooTwoLabels).Labels "qux"
      = some "x" ∧
    StringMap.get [("bar", "baz")] "qux" = none := by
  decide

/-- C2, amended. For an attribute set with unique keys that contains
`gcp.resource_type = foo` and `gcp.foo.bar = baz`, and for any two heuristic mappers, the
result has type `foo` and label `bar = baz` and is the same for both mappers; when no other
attribute key strictly extends `gcp.foo.`, the result is exactly the identity of type `foo`
with the single label `bar = baz`. -/
theorem override_precedence (rm rm' : resourcemapping) (r : Resource) (v x : Value)
    (huniq : r.Attributes.UniqueKeys)
    (hkey : r.Attributes.Get "gcp.resource_type" = some v) (hv : v.AsString = "foo")
    (hbar : r.Attributes.Get "gcp.foo.bar" = some x) (hx : x.AsString = "baz") :
    (CustomResourceToMonitoredResource rm r).Type_ = "foo" ∧
    StringMap.get (CustomResourceToMonitoredResource rm r).Labels "bar" = some "baz" ∧
    CustomResourceToMonitoredResource rm r = CustomResourceToMonitoredResource rm' r ∧
    ((∀ s y, r.Attributes.Get ("gcp.foo." ++ s) = some y → s = "" ∨ s = "bar") →
      CustomResourceToMonitoredResource rm r = ⟨"foo", [("bar", "baz")]⟩) := by
  have hne : v.AsString ≠ "" := by rw [hv]; decide
  have hpfx : ∀ s : String, "gcp." ++ "foo" ++ "." ++ s = "gcp.foo." ++ s := by
    intro s
    apply String.ext
    simp [String.data_append]
  have hlab : ∀ s w, assocGet s
      (writeAll (labelWrite ("gcp." ++ v.AsString ++ ".")) r.Attributes.entries []) = some w ↔
      s ≠ "" ∧ ∃ y, r.Attributes.Get ("gcp.foo." ++ s) = some y ∧ y.AsString = w := by
    intro s w
    rw [labels_get _ _ huniq s w, hv, hpfx]
    rfl
  have hbarlab := (hlab "bar" "baz").2 ⟨by decide, x, hbar, hx⟩
  rw [custom_override rm r v hkey hne, custom_override rm' r v hkey hne]
  refine ⟨hv, hbarlab, rfl, ?_⟩
  intro honly
  rw [hv]
  congr 1
  rw [← hv]
  apply eq_singleton_of_get _ (nodup_keys_writeAll _ _ _ (by simp))
  intro s w
  rw [hlab]
  constructor
  · rintro ⟨hs, y, hy, hw⟩
    rcases honly s y hy with h0 | h0
    · exact absurd h0 hs
    · subst h0
      have hy' : r.Attributes.Get "gcp.foo.bar" = some y := hy
      rw [hbar] at hy'
      cases hy'
      exact ⟨rfl, (hw.symm.trans hx)⟩
  · rintro ⟨rfl, rfl⟩
    exact ⟨by decide, x, hbar, hx⟩

/-- The amended C2 at a resource with unrelated attributes and the mapper pairs
`hostMapper` and `genericMapper`. -/
theorem override_precedence_witness :
    fooOneLabel.Attributes.UniqueKeys ∧
    (hostMapper.ResourceAttributesToMonitoringMonitoredResource ⟨fooOneLabel.Attributes⟩).Type_
      = "h1" ∧
    ((CustomResourceToMonitoredResource hostMapper fooOneLabel).Type_ = "foo" ∧
    StringMap.get (CustomResourceToMonitoredResource hostMapper fooOneLabel).Labels "bar"
      = some "baz" ∧
    CustomResourceToMonitoredResource hostMapper fooOneLabel =
      CustomResourceToMonitoredResource genericMapper fooOneLabel ∧
    ((∀ s y, fooOneLabel.Attributes.Get ("gcp.foo." ++ s) = some y → s = "" ∨ s = "bar") →
      CustomResourceToMonitoredResource hostMapper fooOneLabel = ⟨"foo", [("bar", "baz")]⟩)) ∧
    CustomResourceToMonitoredResource hostMapper fooOneLabel = ⟨"foo", [("bar", "baz")]⟩ :=
  ⟨by decide, by decide,
    override_precedence hostMapper genericMapper fooOneLabel (.str "foo") (.str "baz")
      (by decide) (by decide) (by decide) (by decide) (by decide),
    (override_precedence hostMapper genericMapper fooOneLabel (.str "foo") (.str "baz")
      (by decide) (by decide) (by decide) (by decide) (by decide)).2.2.2 fooOneLabel_only⟩

/-- C3. Default fallback: for an attribute set that has no entry with key
`gcp.resource_type`, the result is exactly what the monitoring-flavour mapper returns for the
same, unaltered attribute set, whatever the mapper is. -/
theorem default_fallback (rm : resourcemapping) (r : Resource)
    (habsent : ∀ e ∈ r.Attributes.entries, e.1 ≠ mappingKey) :
    CustomResourceToMonitoredResource rm r =
      rm.ResourceAttributesToMonitoringMonitoredResource ⟨r.Attributes⟩ := by
  apply custom_default
  left
  cases hget : r.Attributes.Get mappingKey with
  | none => rfl
  | some v => exact absurd rfl (habsent _ (mem_of_assocGet hget))

/-- C3 at a resource without the reserved key: the mapper sees all three attributes. -/
theorem default_fallback_witness :
    (∀ e ∈ plainResource.Attributes.entries, e.1 ≠ mappingKey) ∧
    hostMapper.ResourceAttributesToMonitoringMonitoredResource ⟨plainResource.Attributes⟩ =
      ⟨"h1", [("n", "3")]⟩ ∧
    CustomResourceToMonitoredResource hostMapper plainResource =
      hostMapper.ResourceAttributesToMonitoringMonitoredResource ⟨plainResource.Attributes⟩ :=
  ⟨by decide, by decide, default_fallback hostMapper plainResource (by decide)⟩

/-- C4. When the reserved key is present and its string form is empty, the result is the
monitoring-flavour mapper's result for the whole attribute set. -/
theorem empty_override_falls_through (rm : resourcemapping) (r : Resource) (v : Value)
    (hkey : r.Attributes.Get mappingKey = some v) (hempty : v.AsString = "") :
    CustomResourceToMonitoredResource rm r =
      rm.ResourceAttributesToMonitoringMonitoredResource ⟨r.Attributes⟩ :=
  custom_default rm r (Or.inr ⟨v, hkey, hempty⟩)

/-- C4 at a resource with `gcp.resource_type = ""` and a key starting with `gcp..`. -/
theorem empty_override_falls_through_witness :
    emptyTypeResource.Attributes.Get mappingKey = some (.str "") ∧
    hostMapper.ResourceAttributesToMonitoringMonitoredResource ⟨emptyTypeResource.Attributes⟩
      = ⟨"", [("n", "2")]⟩ ∧
    CustomResourceToMonitoredResource hostMapper emptyTypeResource =
      hostMapper.ResourceAttributesToMonitoringMonitoredResource
        ⟨emptyTypeResource.Attributes⟩ :=
  ⟨by decide, by decide,
    empty_override_falls_through hostMapper emptyTypeResource (.str "") (by decide) (by decide)⟩

/-- C5. Prefix strictness: on the override path no label has the empty string as its key,
and an attribute whose key is exactly the prefix `"gcp." + t + "."` contributes nothing: the
result is the one obtained with such attributes removed. -/
theorem no_empty_label_key (rm : resourcemapping) (r : Resource) (v : Value)
    (hkey : r.Attributes.Get mappingKey = some v) (hne : v.AsString ≠ "") :
    (∀ e ∈ (CustomResourceToMonitoredResource rm r).Labels, e.1 ≠ "") ∧
    StringMap.get (CustomResourceToMonitoredResource rm r).Labels "" = none ∧
    CustomResourceToMonitoredResource rm r =
      CustomResourceToMonitoredResource rm
        ⟨⟨r.Attributes.entries.filter fun e => decide (e.1 ≠ "gcp." ++ v.AsString ++ ".")⟩⟩ := by
  have hmk : mappingKey ≠ "gcp." ++ v.AsString ++ "." := by
    have h := mappingKey_ne_ext v.AsString ""
    rwa [String.append_empty] at h
  have hkey' : (⟨r.Attributes.entries.filter
      fun e => decide (e.1 ≠ "gcp." ++ v.AsString ++ ".")⟩ : Map).Get mappingKey = some v := by
    unfold Map.Get at *
    rw [assocGet_filter_ne _ _ hmk]
    exact hkey
  rw [custom_override rm r v hkey hne, custom_override rm _ v hkey' hne]
  have hkeys : ∀ e ∈ writeAll (labelWrite ("gcp." ++ v.AsString ++ ".")) r.Attributes.entries [],
      e.1 ≠ "" := by
    intro e he
    exact ((labels_keys _ _ e.1).1 (List.mem_map.2 ⟨e, he, rfl⟩)).1
  refine ⟨hkeys, ?_, ?_⟩
  · cases hg : StringMap.get
        (writeAll (labelWrite ("gcp." ++ v.AsString ++ ".")) r.Attributes.entries []) "" with
    | none => rfl
    | some w => exact absurd rfl (hkeys _ (mem_of_assocGet hg))
  · congr 1
    exact (writeAll_filter_ne _ _ (labelWrite_self _) _ _).symm

/-- C5 at an override of type `foo` with an attribute keyed `gcp.foo.`: only `bar` is a
label. -/
theorem no_empty_label_key_witness :
    barePrefixResource.Attributes.Get mappingKey = some (.str "foo") ∧
    CustomResourceToMonitoredResource genericMapper barePrefixResource =
      ⟨"foo", [("bar", "baz")]⟩ ∧
    ((∀ e ∈ (CustomResourceToMonitoredResource genericMapper barePrefixResource).Labels,
      e.1 ≠ "") ∧
    StringMap.get (CustomResourceToMonitoredResource genericMapper barePrefixResource).Labels ""
      = none ∧
    CustomResourceToMonitoredResource genericMapper barePrefixResource =
      CustomResourceToMonitoredResource genericMapper
        ⟨⟨barePrefixResource.Attributes.entries.filter
          fun e => decide (e.1 ≠ "gcp." ++ (Value.str "foo").AsString ++ ".")⟩⟩) :=
  ⟨by decide, by decide,
    no_empty_label_key genericMapper barePrefixResource (.str "foo") (by decide) (by decide)⟩

/-- C6, as stated, fails: with override type `foo`, the attribute
`gcp.foo.gcp.resource_type` becomes a label whose key is the reserved key. -/
theorem reserved_label_counterexample :
    nestedKeyResource.Attributes.UniqueKeys ∧
    nestedKeyResource.Attributes.Get mappingKey = some (.str "foo") ∧
    CustomResourceToMonitoredResource genericMapper nestedKeyResource =
      ⟨"foo", [("gcp.resource_type", "x")]⟩ ∧
    StringMap.get (CustomResourceToMonitoredResource genericMapper nestedKeyResource).Labels
      "gcp.resource_type" = some "x" := by
  decide

/-- C6, amended. On the override path with type `t`, the labels have an entry whose key is
the reserved key `gcp.resource_type` exactly when the attribute set has an attribute whose
key is `"gcp." + t + ".gcp.resource_type"`. -/
theorem reserved_label_iff (rm : resourcemapping) (r : Resource) (v : Value)
    (hkey : r.Attributes.Get mappingKey = some v) (hne : v.AsString ≠ "") :
    mappingKey ∈ (CustomResourceToMonitoredResource rm r).Labels.map Prod.fst ↔
      ∃ x, ("gcp." ++ v.AsString ++ "." ++ mappingKey, x) ∈ r.Attributes.entries := by
  rw [custom_override rm r v hkey hne, labels_keys]
  constructor
  · exact fun h => h.2
  · exact fun h => ⟨by decide, h⟩

/-- The amended C6 at the round-trip resource, whose labels have no such entry. -/
theorem reserved_label_iff_witness :
    podResource.Attributes.Get mappingKey = some (.str "k8s_pod") ∧
    mappingKey ∉ (CustomResourceToMonitoredResource genericMapper podResource).Labels.map
      Prod.fst ∧
    (mappingKey ∈ (CustomResourceToMonitoredResource genericMapper podResource).Labels.map
        Prod.fst ↔
      ∃ x, ("gcp." ++ (Value.str "k8s_pod").AsString ++ "." ++ mappingKey, x) ∈
        podResource.Attributes.entries) :=
  ⟨by decide, by decide,
    reserved_label_iff genericMapper podResource (.str "k8s_pod") (by decide) (by decide)⟩

/-- C7. If the monitoring-flavour mapper always returns a non-empty type, the result of
`CustomResourceToMonitoredResource` has a non-empty type; on the override path that type is
the non-empty string form of the reserved key's value. -/
theorem type_nonempty (rm : resourcemapping) (r : Resource)
    (hm : ∀ a, (rm.ResourceAttributesToMonitoringMonitoredResource a).Type_ ≠ "") :
    (CustomResourceToMonitoredResource rm r).Type_ ≠ "" ∧
    ∀ v, r.Attributes.Get mappingKey = some v → v.AsString ≠ "" →
      (CustomResourceToMonitoredResource rm r).Type_ = v.AsString := by
  constructor
  · unfold CustomResourceToMonitoredResource
    simp only
    split
    · exact hm _
    · assumption
  · intro v hkey hne
    rw [custom_override rm r v hkey hne]

/-- C7 with the mapper that answers `generic_node`, on both paths. -/
theorem type_nonempty_witness :
    (∀ a, (genericMapper.ResourceAttributesToMonitoringMonitoredResource a).Type_ ≠ "") ∧
    (CustomResourceToMonitoredResource genericMapper plainResource).Type_ = "generic_node" ∧
    ((CustomResourceToMonitoredResource genericMapper podResource).Type_ ≠ "" ∧
    ∀ v, podResource.Attributes.Get mappingKey = some v → v.AsString ≠ "" →
      (CustomResourceToMonitoredResource genericMapper podResource).Type_ = v.AsString) :=
  ⟨fun _ => (by decide : ("generic_node" : String) ≠ ""), by decide,
    type_nonempty genericMapper podResource
      (fun _ => (by decide : ("generic_node" : String) ≠ ""))⟩

/-! ## `filterAttributes`: net effect -/

theorem HasPrefix_iff (k p : String) : HasPrefix k p = true ↔ ∃ rest, k = p ++ rest := by
  unfold HasPrefix
  simp only [Bool.and_eq_true, decide_eq_true_eq, beq_iff_eq]
  constructor
  · rintro ⟨_, hp⟩
    refine ⟨sliceFrom k (len p), ?_⟩
    conv_lhs => rw [← sliceTo_append_sliceFrom k (len p)]
    rw [hp]
  · rintro ⟨rest, rfl⟩
    refine ⟨?_, sliceTo_append p rest⟩
    rw [len_append]
    omega

theorem matched_iff (x : Except String Bool) : matched x = true ↔ x = .ok true := by
  cases x with
  | error e => simp [matched]
  | ok b => cases b <;> simp [matched]

theorem ruleMatches_iff (regexpMatch : String → String → Except String Bool)
    (resourceFilters : List ResourceFilter) (k : String) :
    ruleMatches regexpMatch resourceFilters k = true ↔
      ∃ rf ∈ resourceFilters, (∃ rest, k = rf.Prefix ++ rest) ∧
        regexpMatch rf.Regex k = .ok true := by
  unfold ruleMatches
  simp only [List.any_eq_true, Bool.and_eq_true, HasPrefix_iff, matched_iff]

theorem filterLoop_eq (regexpMatch : String → String → Except String Bool) (k : String)
    (v : Value) (attrs : Map) (resourceFilters : List ResourceFilter) :
    filterLoop regexpMatch k v attrs resourceFilters =
      if ruleMatches regexpMatch resourceFilters k = true then attrs.put k v else attrs := by
  induction resourceFilters with
  | nil => simp [filterLoop, ruleMatches]
  | cons rf rest ih =>
    unfold ruleMatches at *
    simp only [filterLoop, List.any_cons]
    by_cases h : (HasPrefix k rf.Prefix && matched (regexpMatch rf.Regex k)) = true
    · simp [h]
    · simp only [h, if_false, ih]
      simp [h]

theorem filterStep_eq (regexpMatch : String → String → Except String Bool)
    (serviceResourceLabels : Bool) (resourceFilters : List ResourceFilter)
    (k : String) (v : Value) (attrs : Map) :
    filterStep regexpMatch serviceResourceLabels resourceFilters k v attrs =
      (⟨applyWrite (filterWrite regexpMatch serviceResourceLabels resourceFilters k v)
        attrs.entries⟩, true) := by
  unfold filterStep filterWrite keeps isServiceKey
  by_cases hs : (serviceResourceLabels &&
      (k == AttributeServiceName || k == AttributeServiceNamespace ||
        k == AttributeServiceInstanceID)) = true
  · rw [if_pos hs, if_pos hs]
    by_cases hl : len v.AsString > 0
    · simp [hl, applyWrite, Map.put]
    · simp [hl, applyWrite]
  · rw [if_neg hs, if_neg hs, filterLoop_eq]
    by_cases hr : ruleMatches regexpMatch resourceFilters k = true
    · simp [hr, applyWrite, Map.put]
    · simp [hr, applyWrite]

theorem rangeLoop_writeAll_map (f : String → Value → Map → Map × Bool)
    (g : String → Value → Option (String × Value))
    (hf : ∀ k v acc, f k v acc = (⟨applyWrite (g k v) acc.entries⟩, true))
    (es : List (String × Value)) (acc : Map) :
    rangeLoop f es acc = ⟨writeAll g es acc.entries⟩ := by
  induction es generalizing acc with
  | nil => rfl
  | cons e rest ih =>
    obtain ⟨k, v⟩ := e
    simp only [rangeLoop, writeAll, hf]
    exact ih _

/-- The output of `filterAttributes` is the net effect of its assignments. -/
theorem filterAttributes_eq (regexpMatch : String → String → Except String Bool)
    (attributes : Map) (serviceResourceLabels : Bool) (resourceFilters : List ResourceFilter) :
    filterAttributes regexpMatch attributes serviceResourceLabels resourceFilters =
      ⟨writeAll (filterWrite regexpMatch serviceResourceLabels resourceFilters)
        attributes.entries []⟩ := by
  unfold filterAttributes Map.Range
  exact rangeLoop_writeAll_map _ _ (filterStep_eq _ _ _) _ _

theorem filterWrite_eq_some_iff (regexpMatch : String → String → Except String Bool)
    (flag : Bool) (rules : List ResourceFilter) (k : String) (v : Value) (s : String)
    (w : Value) :
    filterWrite regexpMatch flag rules k v = some (s, w) ↔
      s = k ∧ w = v ∧ keeps regexpMatch flag rules k v = true := by
  unfold filterWrite
  by_cases h : keeps regexpMatch flag rules k v = true
  · simp only [h, if_true, Option.some.injEq, Prod.mk.injEq, and_true]
    constructor
    · rintro ⟨rfl, rfl⟩; exact ⟨rfl, rfl⟩
    · rintro ⟨rfl, rfl⟩; exact ⟨rfl, rfl⟩
  · simp [h]

theorem filterWrite_pairwise (regexpMatch : String → String → Except String Bool)
    (flag : Bool) (rules : List ResourceFilter) (es : List (String × Value))
    (hnd : (es.map Prod.fst).Nodup) :
    es.Pairwise fun e1 e2 =>
      ∀ a b, filterWrite regexpMatch flag rules e1.1 e1.2 = some a →
        filterWrite regexpMatch flag rules e2.1 e2.2 = some b → a.1 ≠ b.1 := by
  have hp : es.Pairwise fun e1 e2 => e1.1 ≠ e2.1 := List.pairwise_map.1 hnd
  refine hp.imp ?_
  intro e1 e2 hne a b ha hb hab
  obtain ⟨a1, a2⟩ := a
  obtain ⟨b1, b2⟩ := b
  have h1 := ((filterWrite_eq_some_iff _ _ _ _ _ _ _).1 ha).1
  have h2 := ((filterWrite_eq_some_iff _ _ _ _ _ _ _).1 hb).1
  simp only at hab
  exact hne (by rw [← h1, ← h2, hab])

/-- Lookup in the output of the filter, for a map with unique keys. -/
theorem filter_get (regexpMatch : String → String → Except String Bool)
    (attributes : Map) (flag : Bool) (rules : List ResourceFilter)
    (huniq : attributes.UniqueKeys) (k : String) (v : Value) :
    (filterAttributes regexpMatch attributes flag rules).Get k = some v ↔
      attributes.Get k = some v ∧ keeps regexpMatch flag rules k v = true := by
  rw [filterAttributes_eq]
  unfold Map.Get
  rw [assocGet_writeAll _ _ (filterWrite_pairwise _ _ _ _ huniq)]
  simp only [assocGet, and_false, or_false, reduceCtorEq]
  constructor
  · rintro ⟨e, he, hw⟩
    obtain ⟨hk, hv, hkeep⟩ := (filterWrite_eq_some_iff _ _ _ _ _ _ _).1 hw
    obtain ⟨ek, ev⟩ := e
    simp only at hk hv hkeep
    subst hk hv
    exact ⟨assocGet_of_mem huniq he, hkeep⟩
  · rintro ⟨hget, hkeep⟩
    exact ⟨(k, v), mem_of_assocGet hget, (filterWrite_eq_some_iff _ _ _ _ _ _ _).2 ⟨rfl, rfl, hkeep⟩⟩

/-- The keys of the output of the filter, for any map. -/
theorem filter_keys (regexpMatch : String → String → Except String Bool)
    (attributes : Map) (flag : Bool) (rules : List ResourceFilter) (k : String) :
    k ∈ (filterAttributes regexpMatch attributes flag rules).entries.map Prod.fst ↔
      ∃ v, (k, v) ∈ attributes.entries ∧ keeps regexpMatch flag rules k v = true := by
  rw [filterAttributes_eq, ← assocGet_isSome_iff, assocGet_writeAll_isSome]
  simp only [assocGet, Option.isSome_none, or_false, Bool.false_eq_true]
  constructor
  · rintro ⟨e, he, b, hw⟩
    obtain ⟨hk, _, hkeep⟩ := (filterWrite_eq_some_iff _ _ _ _ _ _ _).1 hw
    obtain ⟨ek, ev⟩ := e
    simp only at hk hkeep
    subst hk
    exact ⟨ev, he, hkeep⟩
  · rintro ⟨v, hv, hkeep⟩
    exact ⟨(k, v), hv, v, (filterWrite_eq_some_iff _ _ _ _ _ _ _).2 ⟨rfl, rfl, hkeep⟩⟩

theorem mem_assocPut {β : Type} {k : String} {v : β} {l : List (String × β)} {e : String × β}
    (h : e ∈ assocPut k v l) : e ∈ l ∨ e = (k, v) := by
  induction l with
  | nil =>
    right
    simpa [assocPut] using h
  | cons e' rest ih =>
    obtain ⟨k', v'⟩ := e'
    by_cases hk : k' = k
    · simp only [assocPut, hk, if_true, List.mem_cons] at h
      rcases h with h | h
      · right; exact h
      · left; exact List.mem_cons_of_mem _ h
    · simp only [assocPut, hk, if_false, List.mem_cons] at h
      rcases h with h | h
      · left; rw [h]; exact List.mem_cons_self _ _
      · rcases ih h with h2 | h2
        · left; exact List.mem_cons_of_mem _ h2
        · right; exact h2

/-- Every pair of `writeAll` was in the initial map or was assigned by a visited pair. -/
theorem mem_writeAll {β : Type} (g : String → Value → Option (String × β))
    (es : List (String × Value)) (acc : List (String × β)) (e : String × β)
    (h : e ∈ writeAll g es acc) : e ∈ acc ∨ ∃ e' ∈ es, g e'.1 e'.2 = some e := by
  induction es generalizing acc with
  | nil => left; exact h
  | cons e0 rest ih =>
    obtain ⟨k, v⟩ := e0
    simp only [writeAll] at h
    rcases ih _ h with h1 | ⟨e', he', hg⟩
    · cases hg : g k v with
      | none =>
        rw [hg] at h1
        left; exact h1
      | some kb =>
        rw [hg] at h1
        obtain ⟨k', b'⟩ := kb
        rcases mem_assocPut h1 with h2 | h2
        · left; exact h2
        · right
          exact ⟨(k, v), List.mem_cons_self _ _, by rw [hg, h2]⟩
    · right
      exact ⟨e', List.mem_cons_of_mem _ he', hg⟩

/-- Every pair of the output of the filter is a pair of the input that the filter keeps. -/
theorem filter_mem (regexpMatch : String → String → Except String Bool)
    (attributes : Map) (flag : Bool) (rules : List ResourceFilter) (e : String × Value)
    (h : e ∈ (filterAttributes regexpMatch attributes flag rules).entries) :
    e ∈ attributes.entries ∧ keeps regexpMatch flag rules e.1 e.2 = true := by
  rw [filterAttributes_eq] at h
  rcases mem_writeAll _ _ _ _ h with h1 | ⟨e', he', hg⟩
  · simp at h1
  · obtain ⟨s, w⟩ := e
    obtain ⟨k, v⟩ := e'
    obtain ⟨hk, hv, hkeep⟩ := (filterWrite_eq_some_iff _ _ _ _ _ _ _).1 hg
    subst hk hv
    exact ⟨he', hkeep⟩

/-! ## Claims about `filterAttributes` -/

/-- C8. Rule matching: for an attribute set with unique keys and a key `k` to which the
service-label branch does not apply, the output holds `k` with value `v` exactly when the
input holds `k` with value `v` and some rule of the list has its prefix as a literal prefix
of `k` and its regular expression matching `k`; when no rule matches, `k` is dropped. -/
theorem rule_matching (regexpMatch : String → String → Except String Bool)
    (attributes : Map) (flag : Bool) (rules : List ResourceFilter) (k : String)
    (huniq : attributes.UniqueKeys)
    (hsvc : flag = false ∨ (k ≠ AttributeServiceName ∧ k ≠ AttributeServiceNamespace ∧
      k ≠ AttributeServiceInstanceID)) :
    (∀ v, (filterAttributes regexpMatch attributes flag rules).Get k = some v ↔
      attributes.Get k = some v ∧
        ∃ rf ∈ rules, (∃ rest, k = rf.Prefix ++ rest) ∧ regexpMatch rf.Regex k = .ok true) ∧
    ((¬ ∃ rf ∈ rules, (∃ rest, k = rf.Prefix ++ rest) ∧ regexpMatch rf.Regex k = .ok true) →
      (filterAttributes regexpMatch attributes flag rules).Get k = none) := by
  have hkeep : ∀ v, keeps regexpMatch flag rules k v = ruleMatches regexpMatch rules k := by
    intro v
    unfold keeps isServiceKey
    rcases hsvc with h | ⟨h1, h2, h3⟩
    · simp [h]
    · simp [h1, h2, h3]
  have hiff : ∀ v, (filterAttributes regexpMatch attributes flag rules).Get k = some v ↔
      attributes.Get k = some v ∧
        ∃ rf ∈ rules, (∃ rest, k = rf.Prefix ++ rest) ∧ regexpMatch rf.Regex k = .ok true := by
    intro v
    rw [filter_get _ _ _ _ huniq, hkeep, ruleMatches_iff]
  refine ⟨hiff, ?_⟩
  intro hno
  cases hg : (filterAttributes regexpMatch attributes flag rules).Get k with
  | none => rfl
  | some v => exact absurd ((hiff v).1 hg).2 hno

/-- C8 on `serviceAttrs` with `sampleRules`: `k8s.pod.name` is kept by the first rule, and
the whole output is the service name, the pod name and the zone. -/
theorem rule_matching_witness :
    serviceAttrs.UniqueKeys ∧
    filterAttributes sampleRegexp serviceAttrs true sampleRules =
      ⟨[("service.name", .str "orders"), ("k8s.pod.name", .str "web-1"),
        ("cloud.zone", .int 3)]⟩ ∧
    ((∀ v, (filterAttributes sampleRegexp serviceAttrs true sampleRules).Get "k8s.pod.name"
        = some v ↔
      serviceAttrs.Get "k8s.pod.name" = some v ∧
        ∃ rf ∈ sampleRules, (∃ rest, "k8s.pod.name" = rf.Prefix ++ rest) ∧
          sampleRegexp rf.Regex "k8s.pod.name" = .ok true) ∧
    ((¬ ∃ rf ∈ sampleRules, (∃ rest, "k8s.pod.name" = rf.Prefix ++ rest) ∧
          sampleRegexp rf.Regex "k8s.pod.name" = .ok true) →
      (filterAttributes sampleRegexp serviceAttrs true sampleRules).Get "k8s.pod.name"
        = none)) :=
  ⟨by decide, by decide,
    rule_matching sampleRegexp serviceAttrs true sampleRules "k8s.pod.name" (by decide)
      (Or.inr (by decide))⟩

/-- C9. Service label gating with the flag on: for an attribute set with unique keys and a
key `k` among the three service keys, the output holds `k` with value `v` exactly when the
input holds `k` with value `v` and the string form of `v` is non-empty, whatever the rules
are. -/
theorem service_label_gating_on (regexpMatch : String → String → Except String Bool)
    (attributes : Map) (rules : List ResourceFilter) (k : String)
    (huniq : attributes.UniqueKeys)
    (hk : k = AttributeServiceName ∨ k = AttributeServiceNamespace ∨
      k = AttributeServiceInstanceID) (v : Value) :
    (filterAttributes regexpMatch attributes true rules).Get k = some v ↔
      attributes.Get k = some v ∧ v.AsString ≠ "" := by
  have hkeep : keeps regexpMatch true rules k v = decide (len v.AsString > 0) := by
    unfold keeps isServiceKey
    rcases hk with h | h | h <;> simp [h]
  rw [filter_get _ _ _ _ huniq, hkeep, decide_eq_true_eq]
  have hlen : len v.AsString > 0 ↔ v.AsString ≠ "" := by
    rw [← not_iff_not, not_not, ← len_eq_zero_iff]
    omega
  rw [hlen]

/-- C9 on `serviceAttrs` with a rule that matches every key under `service.`: the empty
`service.namespace` is excluded although the rule matches it. -/
theorem service_label_gating_on_witness :
    serviceAttrs.UniqueKeys ∧
    ruleMatches sampleRegexp serviceRules "service.namespace" = true ∧
    filterAttributes sampleRegexp serviceAttrs true serviceRules =
      ⟨[("service.name", .str "orders")]⟩ ∧
    ((filterAttributes sampleRegexp serviceAttrs true serviceRules).Get "service.namespace"
        = some (.str "") ↔
      serviceAttrs.Get "service.namespace" = some (.str "") ∧ (Value.str "").AsString ≠ "") :=
  ⟨by decide, by decide, by decide,
    service_label_gating_on sampleRegexp serviceAttrs serviceRules "service.namespace"
      (by decide) (Or.inr (Or.inl (by decide))) (.str "")⟩

/-- C10. Service label gating with the flag off: for every attribute set and rule list,
`service.name` is a key of the output exactly when it is a key of the input and some rule
matches it by prefix and regular expression; its value plays no part, and every
`service.name` entry of the output is an entry of the input, value unchanged. -/
theorem service_label_gating_off (regexpMatch : String → String → Except String Bool)
    (attributes : Map) (rules : List ResourceFilter) :
    (AttributeServiceName ∈
        (filterAttributes regexpMatch attributes false rules).entries.map Prod.fst ↔
      AttributeServiceName ∈ attributes.entries.map Prod.fst ∧
        ∃ rf ∈ rules, (∃ rest, AttributeServiceName = rf.Prefix ++ rest) ∧
          regexpMatch rf.Regex AttributeServiceName = .ok true) ∧
    ∀ v, (AttributeServiceName, v) ∈
        (filterAttributes regexpMatch attributes false rules).entries →
      (AttributeServiceName, v) ∈ attributes.entries := by
  have hkeep : ∀ k v, keeps regexpMatch false rules k v = ruleMatches regexpMatch rules k := by
    intro k v
    simp [keeps]
  refine ⟨?_, fun v hv => (filter_mem _ _ _ _ _ hv).1⟩
  rw [filter_keys]
  simp only [hkeep, ruleMatches_iff, List.mem_map, Prod.exists, exists_and_right, exists_eq_right]

/-! ## `filterAttributes` on a map with unique keys -/

theorem assocPut_of_not_mem {β : Type} (k : String) (v : β) (l : List (String × β))
    (h : k ∉ l.map Prod.fst) : assocPut k v l = l ++ [(k, v)] := by
  induction l with
  | nil => rfl
  | cons e rest ih =>
    obtain ⟨k', v'⟩ := e
    simp only [List.map_cons, List.mem_cons, not_or] at h
    have hk : ¬ k' = k := fun h2 => h.1 h2.symm
    simp only [assocPut, hk, if_false, List.cons_append, ih h.2]

/-- Visiting pairs with fresh, pairwise distinct keys appends the kept pairs in order. -/
theorem writeAll_filterWrite_append (regexpMatch : String → String → Except String Bool)
    (flag : Bool) (rules : List ResourceFilter) (es : List (String × Value))
    (hnd : (es.map Prod.fst).Nodup) (acc : List (String × Value))
    (hfresh : ∀ e ∈ es, e.1 ∉ acc.map Prod.fst) :
    writeAll (filterWrite regexpMatch flag rules) es acc =
      acc ++ es.filter fun e => keeps regexpMatch flag rules e.1 e.2 := by
  induction es generalizing acc with
  | nil => simp [writeAll]
  | cons e rest ih =>
    obtain ⟨k, v⟩ := e
    rw [List.map_cons, List.nodup_cons] at hnd
    have hk : k ∉ acc.map Prod.fst := hfresh (k, v) (List.mem_cons_self _ _)
    rw [List.filter_cons]
    by_cases hkeep : keeps regexpMatch flag rules k v = true
    · have hw : filterWrite regexpMatch flag rules k v = some (k, v) := by
        simp [filterWrite, hkeep]
      simp only [writeAll, hw, applyWrite, hkeep, if_true]
      rw [assocPut_of_not_mem k v acc hk, ih hnd.2]
      · simp
      · intro e he
        simp only [List.map_append, List.map_cons, List.map_nil, List.mem_append,
          List.mem_singleton, not_or]
        refine ⟨hfresh e (List.mem_cons_of_mem _ he), ?_⟩
        intro hek
        exact hnd.1 (hek ▸ List.mem_map.2 ⟨e, he, rfl⟩)
    · have hw : filterWrite regexpMatch flag rules k v = none := by
        simp [filterWrite, hkeep]
      simp only [writeAll, hw, applyWrite, hkeep]
      exact ih hnd.2 acc fun e he => hfresh e (List.mem_cons_of_mem _ he)

/-- On a map with unique keys the filter returns the kept pairs, in the input's order. -/
theorem filterAttributes_eq_filter (regexpMatch : String → String → Except String Bool)
    (attributes : Map) (flag : Bool) (rules : List ResourceFilter)
    (huniq : attributes.UniqueKeys) :
    (filterAttributes regexpMatch attributes flag rules).entries =
      attributes.entries.filter fun e => keeps regexpMatch flag rules e.1 e.2 := by
  rw [filterAttributes_eq]
  simp only
  rw [writeAll_filterWrite_append _ _ _ _ huniq [] (by simp)]
  simp

theorem ruleMatches_append (regexpMatch : String → String → Except String Bool)
    (r1 r2 : List ResourceFilter) (k : String) :
    ruleMatches regexpMatch (r1 ++ r2) k =
      (ruleMatches regexpMatch r1 k || ruleMatches regexpMatch r2 k) := by
  simp [ruleMatches, List.any_append]

theorem keeps_append (regexpMatch : String → String → Except String Bool) (flag : Bool)
    (r1 r2 : List ResourceFilter) (k : String) (v : Value) :
    keeps regexpMatch flag (r1 ++ r2) k v =
      (keeps regexpMatch flag r1 k v || keeps regexpMatch flag r2 k v) := by
  unfold keeps
  split
  · simp
  · exact ruleMatches_append _ _ _ _

/-- The filter depends on the rules only through the decision `keeps`. -/
theorem filterAttributes_congr (regexpMatch : String → String → Except String Bool)
    (attributes : Map) (flag : Bool) (r1 r2 : List ResourceFilter)
    (h : ∀ k v, keeps regexpMatch flag r1 k v = keeps regexpMatch flag r2 k v) :
    filterAttributes regexpMatch attributes flag r1 =
      filterAttributes regexpMatch attributes flag r2 := by
  rw [filterAttributes_eq, filterAttributes_eq]
  have hw : filterWrite regexpMatch flag r1 = filterWrite regexpMatch flag r2 := by
    funext k v
    simp [filterWrite, h]
  rw [hw]

theorem writeAll_none {β : Type} (g : String → Value → Option (String × β))
    (hg : ∀ k v, g k v = none) (es : List (String × Value)) (acc : List (String × β)) :
    writeAll g es acc = acc := by
  induction es generalizing acc with
  | nil => rfl
  | cons e rest ih =>
    obtain ⟨k, v⟩ := e
    simp only [writeAll, hg, applyWrite]
    exact ih acc

theorem filter_uniqueKeys (regexpMatch : String → String → Except String Bool)
    (attributes : Map) (flag : Bool) (rules : List ResourceFilter) :
    (filterAttributes regexpMatch attributes flag rules).UniqueKeys := by
  rw [filterAttributes_eq]
  exact nodup_keys_writeAll _ _ _ (by simp)

/-! ## Further claims about `filterAttributes` -/

/-- C11. Inclusion is a union across rules: for an attribute set with unique keys, the
entries of the output for `R1 ++ R2` are those of the output for `R1` together with those of
the output for `R2`; so adding rules removes no label, and swapping the two lists gives the
same output. -/
theorem inclusion_is_union (regexpMatch : String → String → Except String Bool)
    (attributes : Map) (flag : Bool) (r1 r2 : List ResourceFilter)
    (huniq : attributes.UniqueKeys) :
    (∀ e, e ∈ (filterAttributes regexpMatch attributes flag (r1 ++ r2)).entries ↔
      e ∈ (filterAttributes regexpMatch attributes flag r1).entries ∨
        e ∈ (filterAttributes regexpMatch attributes flag r2).entries) ∧
    (∀ e ∈ (filterAttributes regexpMatch attributes flag r1).entries,
      e ∈ (filterAttributes regexpMatch attributes flag (r1 ++ r2)).entries) ∧
    filterAttributes regexpMatch attributes flag (r1 ++ r2) =
      filterAttributes regexpMatch attributes flag (r2 ++ r1) := by
  have hunion : ∀ e, e ∈ (filterAttributes regexpMatch attributes flag (r1 ++ r2)).entries ↔
      e ∈ (filterAttributes regexpMatch attributes flag r1).entries ∨
        e ∈ (filterAttributes regexpMatch attributes flag r2).entries := by
    intro e
    simp only [filterAttributes_eq_filter _ _ _ _ huniq, List.mem_filter, keeps_append,
      Bool.or_eq_true]
    tauto
  refine ⟨hunion, fun e he => (hunion e).2 (Or.inl he), ?_⟩
  apply filterAttributes_congr
  intro k v
  rw [keeps_append, keeps_append, Bool.or_comm]

/-- C11 on `serviceAttrs` with `sampleRules` and `serviceRules`, flag off. -/
theorem inclusion_is_union_witness :
    serviceAttrs.UniqueKeys ∧
    filterAttributes sampleRegexp serviceAttrs false sampleRules =
      ⟨[("k8s.pod.name", .str "web-1"), ("cloud.zone", .int 3)]⟩ ∧
    filterAttributes sampleRegexp serviceAttrs false serviceRules =
      ⟨[("service.name", .str "orders"), ("service.namespace", .str "")]⟩ ∧
    filterAttributes sampleRegexp serviceAttrs false (sampleRules ++ serviceRules) =
      ⟨[("service.name", .str "orders"), ("service.namespace", .str ""),
        ("k8s.pod.name", .str "web-1"), ("cloud.zone", .int 3)]⟩ ∧
    ((∀ e, e ∈ (filterAttributes sampleRegexp serviceAttrs false
          (sampleRules ++ serviceRules)).entries ↔
      e ∈ (filterAttributes sampleRegexp serviceAttrs false sampleRules).entries ∨
        e ∈ (filterAttributes sampleRegexp serviceAttrs false serviceRules).entries) ∧
    (∀ e ∈ (filterAttributes sampleRegexp serviceAttrs false sampleRules).entries,
      e ∈ (filterAttributes sampleRegexp serviceAttrs false
        (sampleRules ++ serviceRules)).entries) ∧
    filterAttributes sampleRegexp serviceAttrs false (sampleRules ++ serviceRules) =
      filterAttributes sampleRegexp serviceAttrs false (serviceRules ++ sampleRules)) :=
  ⟨by decide, by decide, by decide, by decide,
    inclusion_is_union sampleRegexp serviceAttrs false sampleRules serviceRules (by decide)⟩

/-- C12. Malformed patterns are swallowed per rule: `filterAttributes` is a total function
that returns a map, whatever `regexp.Match` answers; a rule on whose pattern `regexp.Match`
reports an error applies to no key, and the output is the one obtained with that rule
removed from the list. -/
theorem malformed_rule_ignored (regexpMatch : String → String → Except String Bool)
    (attributes : Map) (flag : Bool) (r1 r2 : List ResourceFilter) (rf : ResourceFilter)
    (hbad : ∀ k, ∃ err, regexpMatch rf.Regex k = .error err) :
    (∀ k, (HasPrefix k rf.Prefix && matched (regexpMatch rf.Regex k)) = false) ∧
    filterAttributes regexpMatch attributes flag (r1 ++ rf :: r2) =
      filterAttributes regexpMatch attributes flag (r1 ++ r2) := by
  have hno : ∀ k, (HasPrefix k rf.Prefix && matched (regexpMatch rf.Regex k)) = false := by
    intro k
    obtain ⟨err, herr⟩ := hbad k
    simp [herr, matched]
  refine ⟨hno, ?_⟩
  apply filterAttributes_congr
  intro k v
  have hrm : ruleMatches regexpMatch (rf :: r2) k = ruleMatches regexpMatch r2 k := by
    simp only [ruleMatches, List.any_cons, hno, Bool.false_or]
  rw [keeps_append, keeps_append]
  unfold keeps
  split
  · rfl
  · rw [hrm]

/-- C12 on `serviceAttrs`: the rule under `host` with the pattern `(` keeps nothing, and
the rules around it still apply. -/
theorem malformed_rule_ignored_witness :
    (∀ k, ∃ err, sampleRegexp (ResourceFilter.mk "host" "(").Regex k = .error err) ∧
    filterAttributes sampleRegexp serviceAttrs false
        ([⟨"k8s.", ".*"⟩] ++ ⟨"host", "("⟩ :: [⟨"", "zone"⟩]) =
      ⟨[("k8s.pod.name", .str "web-1"), ("cloud.zone", .int 3)]⟩ ∧
    ((∀ k, (HasPrefix k (ResourceFilter.mk "host" "(").Prefix &&
      matched (sampleRegexp (ResourceFilter.mk "host" "(").Regex k)) = false) ∧
    filterAttributes sampleRegexp serviceAttrs false
        ([⟨"k8s.", ".*"⟩] ++ ⟨"host", "("⟩ :: [⟨"", "zone"⟩]) =
      filterAttributes sampleRegexp serviceAttrs false ([⟨"k8s.", ".*"⟩] ++ [⟨"", "zone"⟩])) :=
  ⟨fun _ => ⟨"missing closing )", rfl⟩, by decide,
    malformed_rule_ignored sampleRegexp serviceAttrs false [⟨"k8s.", ".*"⟩] [⟨"", "zone"⟩]
      ⟨"host", "("⟩ (fun _ => ⟨"missing closing )", rfl⟩)⟩

/-- C13, as stated, fails: the integer attribute `cloud.zone = 3` is copied as the integer
`3`, not as the string `"3"` that is its string form. -/
theorem string_coercion_counterexample :
    serviceAttrs.UniqueKeys ∧
    serviceAttrs.Get "cloud.zone" = some (.int 3) ∧
    (Value.int 3).AsString = "3" ∧
    (filterAttributes sampleRegexp serviceAttrs false sampleRules).Get "cloud.zone"
      = some (.int 3) ∧
    (filterAttributes sampleRegexp serviceAttrs false sampleRules).Get "cloud.zone"
      ≠ some (.str (Value.int 3).AsString) := by
  decide

/-- C13, amended. Every value stored in the output of `filterAttributes` is the value of an
input attribute with the same key, copied as it is, with its type; no string coercion takes
place in the copy. -/
theorem values_copied_unchanged (regexpMatch : String → String → Except String Bool)
    (attributes : Map) (flag : Bool) (rules : List ResourceFilter) (k : String) (w : Value)
    (h : (filterAttributes regexpMatch attributes flag rules).Get k = some w) :
    (k, w) ∈ attributes.entries :=
  (filter_mem _ _ _ _ _ (mem_of_assocGet h)).1

/-- The amended C13 on `serviceAttrs`: the integer-valued `cloud.zone` keeps its integer
value. -/
theorem values_copied_unchanged_witness :
    (filterAttributes sampleRegexp serviceAttrs false sampleRules).Get "cloud.zone"
      = some (.int 3) ∧
    (("cloud.zone", Value.int 3) ∈ serviceAttrs.entries) :=
  ⟨by decide,
    values_copied_unchanged sampleRegexp serviceAttrs false sampleRules "cloud.zone" (.int 3)
      (by decide)⟩

/-- C14. The filter only reduces: for an attribute set with unique keys, the output is a
sub-sequence of the input, so every entry of the output is an entry of the input with the
same value, every key of the output is a key of the input, and the output has no more
entries than the input. -/
theorem filter_only_reduces (regexpMatch : String → String → Except String Bool)
    (attributes : Map) (flag : Bool) (rules : List ResourceFilter)
    (huniq : attributes.UniqueKeys) :
    (filterAttributes regexpMatch attributes flag rules).entries.Sublist attributes.entries ∧
    (∀ e ∈ (filterAttributes regexpMatch attributes flag rules).entries,
      e ∈ attributes.entries) ∧
    (∀ k ∈ (filterAttributes regexpMatch attributes flag rules).entries.map Prod.fst,
      k ∈ attributes.entries.map Prod.fst) ∧
    (filterAttributes regexpMatch attributes flag rules).entries.length ≤
      attributes.entries.length := by
  have hsub : (filterAttributes regexpMatch attributes flag rules).entries.Sublist
      attributes.entries := by
    rw [filterAttributes_eq_filter _ _ _ _ huniq]
    exact List.filter_sublist _
  exact ⟨hsub, fun e he => hsub.subset he, fun k hk => (hsub.map Prod.fst).subset hk,
    hsub.length_le⟩

/-- C14 on `serviceAttrs` with `sampleRules`, flag on: three of the five entries remain. -/
theorem filter_only_reduces_witness :
    serviceAttrs.UniqueKeys ∧
    (filterAttributes sampleRegexp serviceAttrs true sampleRules).entries.length = 3 ∧
    serviceAttrs.entries.length = 5 ∧
    ((filterAttributes sampleRegexp serviceAttrs true sampleRules).entries.Sublist
      serviceAttrs.entries ∧
    (∀ e ∈ (filterAttributes sampleRegexp serviceAttrs true sampleRules).entries,
      e ∈ serviceAttrs.entries) ∧
    (∀ k ∈ (filterAttributes sampleRegexp serviceAttrs true sampleRules).entries.map Prod.fst,
      k ∈ serviceAttrs.entries.map Prod.fst) ∧
    (filterAttributes sampleRegexp serviceAttrs true sampleRules).entries.length ≤
      serviceAttrs.entries.length) :=
  ⟨by decide, by decide, by decide,
    filter_only_reduces sampleRegexp serviceAttrs true sampleRules (by decide)⟩

/-- C15. Rule short-circuit: for an attribute set with unique keys, each key occurs at most
once in the output; and when two rules of the list both apply to a key `k` of the input
that the service-label branch leaves to the rules, `k` occurs exactly once in the output,
with the attribute's value. -/
theorem rule_short_circuit (regexpMatch : String → String → Except String Bool)
    (attributes : Map) (flag : Bool) (rules : List ResourceFilter)
    (huniq : attributes.UniqueKeys) :
    ((filterAttributes regexpMatch attributes flag rules).entries.map Prod.fst).Nodup ∧
    ∀ k v rf1 rf2, attributes.Get k = some v →
      (flag = false ∨ (k ≠ AttributeServiceName ∧ k ≠ AttributeServiceNamespace ∧
        k ≠ AttributeServiceInstanceID)) →
      rf1 ∈ rules → rf2 ∈ rules →
      ((∃ rest, k = rf1.Prefix ++ rest) ∧ regexpMatch rf1.Regex k = .ok true) →
      ((∃ rest, k = rf2.Prefix ++ rest) ∧ regexpMatch rf2.Regex k = .ok true) →
      ((filterAttributes regexpMatch attributes flag rules).entries.map Prod.fst).count k = 1 ∧
        (filterAttributes regexpMatch attributes flag rules).Get k = some v := by
  have hnd := filter_uniqueKeys regexpMatch attributes flag rules
  refine ⟨hnd, ?_⟩
  intro k v rf1 rf2 hget hsvc h1 _ hm1 _
  have hkeep : keeps regexpMatch flag rules k v = true := by
    have hr : ruleMatches regexpMatch rules k = true :=
      (ruleMatches_iff _ _ _).2 ⟨rf1, h1, hm1⟩
    unfold keeps isServiceKey
    rcases hsvc with h | ⟨h1, h2, h3⟩
    · simp [h, hr]
    · simp [h1, h2, h3, hr]
  have hout := (filter_get regexpMatch attributes flag rules huniq k v).2 ⟨hget, hkeep⟩
  refine ⟨?_, hout⟩
  apply List.count_eq_one_of_mem hnd
  exact List.mem_map.2 ⟨(k, v), mem_of_assocGet hout, rfl⟩

/-- C15 on `serviceAttrs` with two rules that both apply to `k8s.pod.name`. -/
theorem rule_short_circuit_witness :
    serviceAttrs.UniqueKeys ∧
    filterAttributes sampleRegexp serviceAttrs true overlappingRules =
      ⟨[("service.name", .str "orders"), ("k8s.pod.name", .str "web-1")]⟩ ∧
    (((filterAttributes sampleRegexp serviceAttrs true overlappingRules).entries.map
        Prod.fst).count "k8s.pod.name" = 1 ∧
      (filterAttributes sampleRegexp serviceAttrs true overlappingRules).Get "k8s.pod.name"
        = some (.str "web-1")) :=
  ⟨by decide, by decide,
    (rule_short_circuit sampleRegexp serviceAttrs true overlappingRules (by decide)).2
      "k8s.pod.name" (.str "web-1") ⟨"k8s.", ".*"⟩ ⟨"", "pod"⟩ (by decide)
      (Or.inr (by decide)) (by decide) (by decide)
      ⟨⟨"pod.name", by decide⟩, rfl⟩ ⟨⟨"k8s.pod.name", by decide⟩, rfl⟩⟩

/-- C16. With an empty rule list and the flag off, `filterAttributes` returns the empty
map, for every attribute set. -/
theorem no_rules_no_labels (regexpMatch : String → String → Except String Bool)
    (attributes : Map) :
    filterAttributes regexpMatch attributes false [] = NewMap := by
  rw [filterAttributes_eq, writeAll_none]
  · rfl
  · intro k v
    simp [filterWrite, keeps, ruleMatches]

/-- C16 on the attributes of the round-trip scenario. -/
theorem no_rules_no_labels_witness :
    podResource.Attributes.entries.length = 4 ∧
    filterAttributes sampleRegexp podResource.Attributes false [] = NewMap :=
  ⟨by decide, no_rules_no_labels sampleRegexp podResource.Attributes⟩

/-- C19. Idempotence: for an attribute set with unique keys, filtering the output of
`filterAttributes` again with the same flag and rules returns that output. -/
theorem filter_idempotent (regexpMatch : String → String → Except String Bool)
    (attributes : Map) (flag : Bool) (rules : List ResourceFilter)
    (huniq : attributes.UniqueKeys) :
    filterAttributes regexpMatch
        (filterAttributes regexpMatch attributes flag rules) flag rules =
      filterAttributes regexpMatch attributes flag rules := by
  have hout := filter_uniqueKeys regexpMatch attributes flag rules
  have h1 := filterAttributes_eq_filter regexpMatch
    (filterAttributes regexpMatch attributes flag rules) flag rules hout
  have h2 := filterAttributes_eq_filter regexpMatch attributes flag rules huniq
  have h3 : (filterAttributes regexpMatch
      (filterAttributes regexpMatch attributes flag rules) flag rules).entries =
      (filterAttributes regexpMatch attributes flag rules).entries := by
    rw [h1, h2, List.filter_filter]
    simp
  cases hA : filterAttributes regexpMatch
    (filterAttributes regexpMatch attributes flag rules) flag rules with
  | mk ea =>
    cases hB : filterAttributes regexpMatch attributes flag rules with
    | mk eb =>
      rw [hB] at h3 hA
      rw [hA] at h3
      exact congrArg Map.mk h3

/-- C19 on `serviceAttrs` with `sampleRules`, flag on. -/
theorem filter_idempotent_witness :
    serviceAttrs.UniqueKeys ∧
    filterAttributes sampleRegexp serviceAttrs true sampleRules ≠ serviceAttrs ∧
    filterAttributes sampleRegexp
        (filterAttributes sampleRegexp serviceAttrs true sampleRules) true sampleRules =
      filterAttributes sampleRegexp serviceAttrs true sampleRules :=
  ⟨by decide, by decide,
    filter_idempotent sampleRegexp serviceAttrs true sampleRules (by decide)⟩

/-! ## Further claims about `CustomResourceToMonitoredResource` -/

theorem assocGet_append_first {β : Type} (k : String) (v : β) (pre post : List (String × β))
    (hpre : ∀ e ∈ pre, e.1 ≠ k) : assocGet k (pre ++ (k, v) :: post) = some v := by
  induction pre with
  | nil => simp [assocGet]
  | cons e rest ih =>
    obtain ⟨k', v'⟩ := e
    have hk : ¬ k' = k := hpre (k', v') (List.mem_cons_self _ _)
    simp only [List.cons_append, assocGet, hk, if_false]
    exact ih fun e he => hpre e (List.mem_cons_of_mem _ he)

theorem labelWrite_mappingKey (t : String) (x : Value) :
    labelWrite ("gcp." ++ t ++ ".") mappingKey x = none := by
  cases h : labelWrite ("gcp." ++ t ++ ".") mappingKey x with
  | none => rfl
  | some sw =>
    obtain ⟨s, w⟩ := sw
    exact absurd ((labelWrite_eq_some_iff _ _ _ _ _).1 h).2.1 (mappingKey_ne_ext t s)

/-- C17. First occurrence of the reserved key wins: in a sequence of attributes that may
repeat keys, let `(gcp.resource_type, v)` be the first entry with the reserved key.  The
type found by the first `Range` is the string form of `v`, whatever follows that entry; so
the result has that type when it is non-empty, and is the mapper's result for the whole
sequence when it is empty, even if a later entry carries the reserved key with a non-empty
value. -/
theorem first_reserved_key_wins (rm : resourcemapping) (pre post : List (String × Value))
    (v : Value) (hpre : ∀ e ∈ pre, e.1 ≠ mappingKey) :
    (⟨pre ++ (mappingKey, v) :: post⟩ : Map).Range findType "" = v.AsString ∧
    (v.AsString ≠ "" →
      (CustomResourceToMonitoredResource rm ⟨⟨pre ++ (mappingKey, v) :: post⟩⟩).Type_
        = v.AsString) ∧
    (v.AsString = "" →
      CustomResourceToMonitoredResource rm ⟨⟨pre ++ (mappingKey, v) :: post⟩⟩ =
        rm.ResourceAttributesToMonitoringMonitoredResource
          ⟨⟨pre ++ (mappingKey, v) :: post⟩⟩) := by
  have hget : (⟨pre ++ (mappingKey, v) :: post⟩ : Map).Get mappingKey = some v :=
    assocGet_append_first mappingKey v pre post hpre
  refine ⟨?_, ?_, ?_⟩
  · unfold Map.Range
    rw [rangeLoop_findType]
    unfold Map.Get at hget
    simp only at hget
    rw [hget]
  · intro hne
    rw [custom_override rm _ v hget hne]
  · intro hempty
    exact custom_default rm _ (Or.inr ⟨v, hget, hempty⟩)

/-- C17 on two sequences that repeat the reserved key: with the empty string first, the
mapper decides although `foo` follows; with `foo` first, the type is `foo` and `other` is
not consulted. -/
theorem first_reserved_key_wins_witness :
    CustomResourceToMonitoredResource genericMapper fooThenOther = ⟨"foo", [("bar", "baz")]⟩ ∧
    hostMapper.ResourceAttributesToMonitoringMonitoredResource ⟨emptyThenFoo.Attributes⟩ =
      ⟨"", [("n", "3")]⟩ ∧
    CustomResourceToMonitoredResource hostMapper emptyThenFoo =
      hostMapper.ResourceAttributesToMonitoringMonitoredResource ⟨emptyThenFoo.Attributes⟩ :=
  ⟨by decide, by decide,
    (first_reserved_key_wins hostMapper []
      [("gcp.resource_type", .str "foo"), ("gcp.foo.bar", .str "baz")] (.str "")
      (by simp)).2.2 rfl⟩

/-- C18. The attribute carrying the reserved key never becomes a label: for every type `t`
the second `Range` callback leaves the labels as they are on the key `gcp.resource_type`,
and on the override path the labels of the result are the labels that the second `Range`
computes from the attribute set with the `gcp.resource_type` entries removed. -/
theorem reserved_attribute_not_a_label (rm : resourcemapping) (r : Resource) (v : Value)
    (hkey : r.Attributes.Get mappingKey = some v) (hne : v.AsString ≠ "") :
    (∀ t x acc, collectLabel (monitoredResourceLabelPrefix ++ t ++ ".") mappingKey x acc
      = (acc, true)) ∧
    (CustomResourceToMonitoredResource rm r).Labels =
      (⟨r.Attributes.entries.filter fun e => decide (e.1 ≠ mappingKey)⟩ : Map).Range
        (collectLabel (monitoredResourceLabelPrefix ++ v.AsString ++ ".")) [] := by
  constructor
  · intro t x acc
    unfold monitoredResourceLabelPrefix
    rw [collectLabel_eq, labelWrite_mappingKey]
    rfl
  · rw [custom_override rm r v hkey hne]
    unfold Map.Range monitoredResourceLabelPrefix
    simp only
    rw [rangeLoop_writeAll _ _ (collectLabel_eq ("gcp." ++ v.AsString ++ ".")),
      writeAll_filter_ne _ _ (labelWrite_mappingKey v.AsString)]

/-- C18 on the round-trip resource. -/
theorem reserved_attribute_not_a_label_witness :
    podResource.Attributes.Get mappingKey = some (.str "k8s_pod") ∧
    (podResource.Attributes.entries.filter fun e => decide (e.1 ≠ mappingKey)).length = 3 ∧
    (CustomResourceToMonitoredResource genericMapper podResource).Labels =
      [("namespace", "default"), ("pod_name", "web-1")] ∧
    ((∀ t x acc, collectLabel (monitoredResourceLabelPrefix ++ t ++ ".") mappingKey x acc
      = (acc, true)) ∧
    (CustomResourceToMonitoredResource genericMapper podResource).Labels =
      (⟨podResource.Attributes.entries.filter fun e => decide (e.1 ≠ mappingKey)⟩ : Map).Range
        (collectLabel (monitoredResourceLabelPrefix ++ (Value.str "k8s_pod").AsString ++ "."))
        []) :=
  ⟨by decide, by decide, by decide,
    reserved_attribute_not_a_label genericMapper podResource (.str "k8s_pod")
      (by decide) (by decide)⟩

end Collector
